import Mathlib

/-!
# Verification of the MIMI content codec (`mimi-content`)

A shallow embedding, in Lean 4, of the MIMI content format codec:
the positional/list CBOR encoding produced by the `Serde_list`,
`ExternallyTagged` and `Serde_custom` derives (`serde_list_macros/src/lib.rs`),
the concrete content schema (`src/content_container.rs`), the timestamp codec
(`src/message_status.rs`), and the SHA-256-based message-id derivation.

Bytes are modelled as natural numbers (well-formedness predicates bound them
below 256 where it matters).  The CBOR low-level layer (an external library,
`ciborium`, in the source) is modelled in its canonical definite-length
fragment, which is the fragment the encoder emits; floating-point items and
indefinite-length items are outside the model.  Rust panics are modelled as a
distinct decoder outcome (`DecR.panicked`), separate from returned errors.
-/

set_option maxRecDepth 8000

namespace Mimi

/-! ## Big-endian byte strings -/

/-- `k`-byte big-endian encoding of `n` (used for CBOR argument widths 2, 4, 8). -/
def beBytes : Nat → Nat → List Nat
  | 0, _ => []
  | k + 1, n => beBytes k (n / 256) ++ [n % 256]

/-- Value of a big-endian byte string. -/
def beVal (l : List Nat) : Nat := l.foldl (fun a b => 256 * a + b) 0

theorem length_beBytes (k n : Nat) : (beBytes k n).length = k := by
  induction k generalizing n with
  | zero => rfl
  | succ k ih => simp [beBytes, ih]

theorem beVal_append_one (l : List Nat) (b : Nat) :
    beVal (l ++ [b]) = 256 * beVal l + b := by
  simp [beVal, List.foldl_append]

theorem beVal_beBytes (k n : Nat) (h : n < 256 ^ k) : beVal (beBytes k n) = n := by
  induction k generalizing n with
  | zero => simp [beBytes, beVal]; omega
  | succ k ih =>
    have hdiv : n / 256 < 256 ^ k := by
      rw [Nat.div_lt_iff_lt_mul (by omega)]
      calc n < 256 ^ (k + 1) := h
        _ = 256 ^ k * 256 := by ring
    rw [beBytes, beVal_append_one, ih _ hdiv]
    omega

/-! ## CBOR item heads

`cborHead major arg` is the canonical (shortest-form) CBOR head for an item of
the given major type with argument `arg`, as emitted by the external CBOR
encoder (`ciborium`): arguments below 24 are packed into the first byte,
larger ones use the 1-, 2-, 4- or 8-byte big-endian forms. -/

def cborHead (major arg : Nat) : List Nat :=
  if arg < 24 then [32 * major + arg]
  else if arg < 256 then [32 * major + 24, arg]
  else if arg < 65536 then (32 * major + 25) :: beBytes 2 arg
  else if arg < 4294967296 then (32 * major + 26) :: beBytes 4 arg
  else (32 * major + 27) :: beBytes 8 arg

theorem cborHead_ne_nil (major arg : Nat) : cborHead major arg ≠ [] := by
  unfold cborHead
  split <;> [skip; split] <;> [simp; simp; split <;> [simp; split <;> simp]]

theorem length_cborHead_pos (major arg : Nat) : 1 ≤ (cborHead major arg).length := by
  cases h : cborHead major arg with
  | nil => exact absurd h (cborHead_ne_nil major arg)
  | cons a l => simp

/-! ## Decoder outcomes

Decoding in the source either succeeds, returns a `serde` error (all of which
`MimiContent::deserialize` collapses into `Error::DeserializationFailed`), or
panics (the `assert!` in the `Serde_list` derive's `visit_seq`).  `DecR`
records these three outcomes. -/

inductive DecR (α : Type) where
  | ok (a : α)
  | fail
  | panicked
  deriving DecidableEq

/-- Sequencing of decode steps: errors and panics propagate. -/
def DecR.bind : DecR α → (α → DecR β) → DecR β
  | .ok a, f => f a
  | .fail, _ => .fail
  | .panicked, _ => .panicked

@[simp] theorem DecR.bind_ok (a : α) (f : α → DecR β) : DecR.bind (.ok a) f = f a := rfl
@[simp] theorem DecR.bind_fail (f : α → DecR β) : DecR.bind .fail f = .fail := rfl
@[simp] theorem DecR.bind_panicked (f : α → DecR β) :
    DecR.bind .panicked f = .panicked := rfl

/-- Read exactly `k` bytes from the front of the buffer. -/
def readN : Nat → List Nat → Option (List Nat × List Nat)
  | 0, l => some ([], l)
  | _ + 1, [] => none
  | k + 1, b :: l =>
    match readN k l with
    | some (taken, rest) => some (b :: taken, rest)
    | none => none

theorem readN_append (l rest : List Nat) : readN l.length (l ++ rest) = some (l, rest) := by
  induction l with
  | nil => rfl
  | cons b t ih => simp [readN, ih]

/-- Decode a CBOR head: major type and argument.  Accepts the 1-, 2-, 4- and
8-byte argument forms; additional-info values 28–31 (reserved or
indefinite-length) are rejected, as the canonical encoder never emits them. -/
def decHead : List Nat → DecR ((Nat × Nat) × List Nat)
  | [] => .fail
  | b :: rest =>
    let major := b / 32
    let info := b % 32
    if info < 24 then .ok ((major, info), rest)
    else if info = 24 then
      match readN 1 rest with
      | some (ds, rest) => .ok ((major, beVal ds), rest)
      | none => .fail
    else if info = 25 then
      match readN 2 rest with
      | some (ds, rest) => .ok ((major, beVal ds), rest)
      | none => .fail
    else if info = 26 then
      match readN 4 rest with
      | some (ds, rest) => .ok ((major, beVal ds), rest)
      | none => .fail
    else if info = 27 then
      match readN 8 rest with
      | some (ds, rest) => .ok ((major, beVal ds), rest)
      | none => .fail
    else .fail

theorem decHead_cborHead (major arg : Nat) (ha : arg < 2 ^ 64)
    (rest : List Nat) : decHead (cborHead major arg ++ rest) = .ok ((major, arg), rest) := by
  unfold cborHead
  by_cases h24 : arg < 24
  · have h1 : (32 * major + arg) / 32 = major := by omega
    have h2 : (32 * major + arg) % 32 = arg := by omega
    simp [h24, decHead, h1, h2]
  · by_cases h256 : arg < 256
    · have h1 : (32 * major + 24) / 32 = major := by omega
      have h2 : (32 * major + 24) % 32 = 24 := by omega
      simp [h24, h256, decHead, h1, h2, readN, beVal]
    · by_cases h65536 : arg < 65536
      · have h1 : (32 * major + 25) / 32 = major := by omega
        have h2 : (32 * major + 25) % 32 = 25 := by omega
        have hr : readN 2 (beBytes 2 arg ++ rest) = some (beBytes 2 arg, rest) := by
          have := readN_append (beBytes 2 arg) rest
          rwa [length_beBytes] at this
        simp [h24, h256, h65536, decHead, h1, h2, hr,
          beVal_beBytes 2 arg (by norm_num; omega)]
      · by_cases h32 : arg < 4294967296
        · have h1 : (32 * major + 26) / 32 = major := by omega
          have h2 : (32 * major + 26) % 32 = 26 := by omega
          have hr : readN 4 (beBytes 4 arg ++ rest) = some (beBytes 4 arg, rest) := by
            have := readN_append (beBytes 4 arg) rest
            rwa [length_beBytes] at this
          simp [h24, h256, h65536, h32, decHead, h1, h2, hr,
            beVal_beBytes 4 arg (by norm_num; omega)]
        · have h1 : (32 * major + 27) / 32 = major := by omega
          have h2 : (32 * major + 27) % 32 = 27 := by omega
          have hr : readN 8 (beBytes 8 arg ++ rest) = some (beBytes 8 arg, rest) := by
            have := readN_append (beBytes 8 arg) rest
            rwa [length_beBytes] at this
          simp [h24, h256, h65536, h32, decHead, h1, h2, hr,
            beVal_beBytes 8 arg (by norm_num; omega)]

/-! ## Primitive item codecs

These model how `ciborium`'s serde integration encodes and decodes the
primitive Rust types used by the schema: unsigned integers (`u8`, `u16`,
`u32`, `u64`), booleans, byte buffers (`serde_bytes::ByteBuf`, major type 2),
strings (major type 3, UTF-8 checked on decode), and `Option` (CBOR null for
`None`). -/

def encUint (n : Nat) : List Nat := cborHead 0 n

/-- Encoding of a `ciborium` integer: non-negative values use major type 0,
negative values use major type 1 with argument `-1 - i`. -/
def encInt (i : Int) : List Nat :=
  if 0 ≤ i then cborHead 0 i.toNat else cborHead 1 (-1 - i).toNat

def encBytes (b : List Nat) : List Nat := cborHead 2 b.length ++ b

def encText (s : List Nat) : List Nat := cborHead 3 s.length ++ s

def encBool : Bool → List Nat
  | false => [244]
  | true => [245]

def encNull : List Nat := [246]

def encOption (enc : α → List Nat) : Option α → List Nat
  | none => encNull
  | some a => enc a

/-- Decode an unsigned integer of a bounded width: an integer item of major
type 0 whose value fits the width; anything else (including major type 1,
whose negative values fail the unsigned conversion) is an error. -/
def decUintW (bound : Nat) (buf : List Nat) : DecR (Nat × List Nat) :=
  match decHead buf with
  | .ok ((0, n), rest) => if n < bound then .ok (n, rest) else .fail
  | .ok _ => .fail
  | .fail => .fail
  | .panicked => .panicked

def decU8 : List Nat → DecR (Nat × List Nat) := decUintW 256
def decU16 : List Nat → DecR (Nat × List Nat) := decUintW 65536
def decU32 : List Nat → DecR (Nat × List Nat) := decUintW 4294967296
def decU64 : List Nat → DecR (Nat × List Nat) := decUintW 18446744073709551616

/-- UTF-8 validity of a byte string, as checked by Rust's `String` type on
decode (rejects overlong forms, surrogates, values above U+10FFFF). -/
def validUtf8 : List Nat → Bool
  | [] => true
  | b :: rest =>
    if b < 128 then validUtf8 rest
    else if b < 194 then false
    else if b < 224 then
      match rest with
      | b1 :: rest => if 128 ≤ b1 ∧ b1 < 192 then validUtf8 rest else false
      | [] => false
    else if b < 240 then
      match rest with
      | b1 :: b2 :: rest =>
        if (if b = 224 then 160 ≤ b1 ∧ b1 < 192
            else if b = 237 then 128 ≤ b1 ∧ b1 < 160
            else 128 ≤ b1 ∧ b1 < 192) ∧ 128 ≤ b2 ∧ b2 < 192 then
          validUtf8 rest
        else false
      | _ => false
    else if b < 245 then
      match rest with
      | b1 :: b2 :: b3 :: rest =>
        if (if b = 240 then 144 ≤ b1 ∧ b1 < 192
            else if b = 244 then 128 ≤ b1 ∧ b1 < 144
            else 128 ≤ b1 ∧ b1 < 192) ∧
            (128 ≤ b2 ∧ b2 < 192) ∧ 128 ≤ b3 ∧ b3 < 192 then
          validUtf8 rest
        else false
      | _ => false
    else false

/-- Decode a byte string (major type 2). -/
def decBytes (buf : List Nat) : DecR (List Nat × List Nat) :=
  match decHead buf with
  | .ok ((2, n), rest) =>
    match readN n rest with
    | some (b, rest) => .ok (b, rest)
    | none => .fail
  | .ok _ => .fail
  | .fail => .fail
  | .panicked => .panicked

/-- Decode a text string (major type 3); the byte content must be valid
UTF-8, as Rust `String` decoding validates it. -/
def decText (buf : List Nat) : DecR (List Nat × List Nat) :=
  match decHead buf with
  | .ok ((3, n), rest) =>
    match readN n rest with
    | some (s, rest) => if validUtf8 s then .ok (s, rest) else .fail
    | none => .fail
  | .ok _ => .fail
  | .fail => .fail
  | .panicked => .panicked

def decBool : List Nat → DecR (Bool × List Nat)
  | 244 :: rest => .ok (false, rest)
  | 245 :: rest => .ok (true, rest)
  | _ => .fail

/-- Decode an `Option`: a CBOR null yields `none`, anything else is handed to
the inner decoder (mirrors `ciborium`'s `deserialize_option`). -/
def decOption (dec : List Nat → DecR (α × List Nat)) (buf : List Nat) :
    DecR (Option α × List Nat) :=
  match buf with
  | 246 :: rest => .ok (none, rest)
  | _ => (dec buf).bind fun (a, rest) => .ok (some a, rest)

/-! ### Round-trip lemmas for the primitive codecs -/

theorem decUintW_encUint (bound n : Nat) (hb : n < bound) (hn : n < 2 ^ 64)
    (rest : List Nat) : decUintW bound (encUint n ++ rest) = .ok (n, rest) := by
  simp [decUintW, encUint, decHead_cborHead 0 n hn, hb]

theorem decBytes_encBytes (b : List Nat) (hl : b.length < 2 ^ 64) (rest : List Nat) :
    decBytes (encBytes b ++ rest) = .ok (b, rest) := by
  simp only [decBytes, encBytes, List.append_assoc, decHead_cborHead 2 b.length hl,
    readN_append]

theorem decText_encText (s : List Nat) (hu : validUtf8 s = true)
    (hl : s.length < 2 ^ 64) (rest : List Nat) :
    decText (encText s ++ rest) = .ok (s, rest) := by
  simp only [decText, encText, List.append_assoc, decHead_cborHead 3 s.length hl,
    readN_append, hu, if_true]

theorem decBool_encBool (b : Bool) (rest : List Nat) :
    decBool (encBool b ++ rest) = .ok (b, rest) := by
  cases b <;> rfl

/-- The head byte of an encoding determines that it is not a CBOR null;
encodings of major types 0–5 therefore never collide with `None`. -/
theorem decOption_some (dec : List Nat → DecR (α × List Nat))
    (enc : List Nat) (hd : Nat) (tl : List Nat) (hsplit : enc = hd :: tl)
    (hne : hd ≠ 246) (a : α) (rest : List Nat)
    (hr : dec (enc ++ rest) = .ok (a, rest)) :
    decOption dec (enc ++ rest) = .ok (some a, rest) := by
  subst hsplit
  unfold decOption
  split
  · rename_i heq
    simp only [List.cons_append] at heq
    injection heq with h1 h2
    exact absurd h1 hne
  · rw [hr]
    rfl

theorem decOption_none (dec : List Nat → DecR (α × List Nat)) (rest : List Nat) :
    decOption dec (encNull ++ rest) = .ok (none, rest) := rfl

theorem cborHead_head_lt (major arg : Nat) (hm : major < 6) :
    ∃ hd tl, cborHead major arg = hd :: tl ∧ hd < 224 := by
  unfold cborHead
  split
  · exact ⟨_, _, rfl, by omega⟩
  · split
    · exact ⟨_, _, rfl, by omega⟩
    · split
      · exact ⟨_, _, rfl, by omega⟩
      · split
        · exact ⟨_, _, rfl, by omega⟩
        · exact ⟨_, _, rfl, by omega⟩

/-! ## Open enumerations

The `Serde_custom` derives (see `derive_serde_custom_u8` in
`serde_list_macros/src/lib.rs`) encode a named variant as its declared
discriminant and `Custom(n)` as `n`; decoding maps a named code to its
variant and any other value to `Custom`.  `EncryptionAlgorithm` is
`repr(u16)`; the u16 width of its codec follows the spec (§4.3), the u8
derive shown in the sources being its u8 counterpart. -/

inductive Disposition where
  | Unspecified
  | Render
  | Reaction
  | Profile
  | Inline
  | Icon
  | Attachment
  | Session
  | Preview
  | Custom (n : Nat)
  deriving DecidableEq

/-- Default from `#[default] Unspecified`. -/
def Disposition.default : Disposition := .Unspecified

def Disposition.toU8 : Disposition → Nat
  | .Unspecified => 0
  | .Render => 1
  | .Reaction => 2
  | .Profile => 3
  | .Inline => 4
  | .Icon => 5
  | .Attachment => 6
  | .Session => 7
  | .Preview => 8
  | .Custom n => n

def Disposition.fromU8 (n : Nat) : Disposition :=
  match n with
  | 0 => .Unspecified
  | 1 => .Render
  | 2 => .Reaction
  | 3 => .Profile
  | 4 => .Inline
  | 5 => .Icon
  | 6 => .Attachment
  | 7 => .Session
  | 8 => .Preview
  | _ => .Custom n

/-- Well-typedness: a `Custom` payload fits in `u8`. -/
def Disposition.wt : Disposition → Bool
  | .Custom n => decide (n < 256)
  | _ => true

/-- Collision freedom: a `Custom` payload is not a named code (0–8). -/
def Disposition.noColl : Disposition → Bool
  | .Custom n => decide (9 ≤ n)
  | _ => true

theorem Disposition.toU8_fromU8 (n : Nat) : (Disposition.fromU8 n).toU8 = n := by
  unfold Disposition.fromU8
  split <;> rfl

theorem Disposition.fromU8_default (n : Nat) (h : 9 ≤ n) :
    Disposition.fromU8 n = .Custom n := by
  unfold Disposition.fromU8
  split <;> first | omega | rfl

theorem dispositionFromU8_toU8 (d : Disposition) (h : d.noColl = true) :
    Disposition.fromU8 d.toU8 = d := by
  cases d with
  | Custom n =>
    simp only [Disposition.noColl, decide_eq_true_eq] at h
    exact Disposition.fromU8_default n h
  | _ => rfl

theorem dispositionToU8_lt (d : Disposition) (h : d.wt = true) : d.toU8 < 256 := by
  cases d with
  | Custom n => simpa [Disposition.wt] using h
  | _ => simp [Disposition.toU8]

inductive HashAlgorithm where
  | Unspecified
  | Sha256
  | Sha256_128
  | Sha256_120
  | Sha256_96
  | Sha256_64
  | Sha256_32
  | Sha384
  | Sha512
  | Sha3_224
  | Sha3_256
  | Sha3_384
  | Sha3_512
  | Custom (n : Nat)
  deriving DecidableEq

def HashAlgorithm.toU8 : HashAlgorithm → Nat
  | .Unspecified => 0
  | .Sha256 => 1
  | .Sha256_128 => 2
  | .Sha256_120 => 3
  | .Sha256_96 => 4
  | .Sha256_64 => 5
  | .Sha256_32 => 6
  | .Sha384 => 7
  | .Sha512 => 8
  | .Sha3_224 => 9
  | .Sha3_256 => 10
  | .Sha3_384 => 11
  | .Sha3_512 => 12
  | .Custom n => n

def HashAlgorithm.fromU8 (n : Nat) : HashAlgorithm :=
  match n with
  | 0 => .Unspecified
  | 1 => .Sha256
  | 2 => .Sha256_128
  | 3 => .Sha256_120
  | 4 => .Sha256_96
  | 5 => .Sha256_64
  | 6 => .Sha256_32
  | 7 => .Sha384
  | 8 => .Sha512
  | 9 => .Sha3_224
  | 10 => .Sha3_256
  | 11 => .Sha3_384
  | 12 => .Sha3_512
  | _ => .Custom n

def HashAlgorithm.wt : HashAlgorithm → Bool
  | .Custom n => decide (n < 256)
  | _ => true

def HashAlgorithm.noColl : HashAlgorithm → Bool
  | .Custom n => decide (13 ≤ n)
  | _ => true

theorem hashAlgorithmFromU8_toU8 (a : HashAlgorithm) (h : a.noColl = true) :
    HashAlgorithm.fromU8 a.toU8 = a := by
  cases a with
  | Custom n =>
    simp only [HashAlgorithm.noColl, decide_eq_true_eq] at h
    show HashAlgorithm.fromU8 n = .Custom n
    unfold HashAlgorithm.fromU8
    split <;> first | omega | rfl
  | _ => rfl

theorem hashAlgorithmToU8_lt (a : HashAlgorithm) (h : a.wt = true) : a.toU8 < 256 := by
  cases a with
  | Custom n => simpa [HashAlgorithm.wt] using h
  | _ => simp [HashAlgorithm.toU8]

inductive EncryptionAlgorithm where
  | None
  | Aes128Gcm
  | Aes256Gcm
  | Aes128Ccm
  | Aes256Ccm
  | Aes128Gcm8
  | Aes256Gcm8
  | Aes128Gcm12
  | Aes256Gcm12
  | Aes128CcmShort
  | Aes256CcmShort
  | Aes128CcmShort8
  | Aes256CcmShort8
  | Aes128CcmShort12
  | Aes256CcmShort12
  | AesSivCmac256
  | AesSivCmac384
  | AesSivCmac512
  | Aes128Ccm8
  | Aes256Ccm8
  | Aes128OcbTaglen128
  | Aes128OcbTaglen96
  | Aes128OcbTaglen64
  | Aes192OcbTaglen128
  | Aes192OcbTaglen96
  | Aes192OcbTaglen64
  | Aes256OcbTaglen128
  | Aes256OcbTaglen96
  | Aes256OcbTaglen64
  | Chacha20Poly1305
  | Aes128GcmSiv
  | Aes256GcmSiv
  | Aegis128L
  | Aegis256
  | Custom (n : Nat)
  deriving DecidableEq

def EncryptionAlgorithm.toU16 : EncryptionAlgorithm → Nat
  | .None => 0
  | .Aes128Gcm => 1
  | .Aes256Gcm => 2
  | .Aes128Ccm => 3
  | .Aes256Ccm => 4
  | .Aes128Gcm8 => 5
  | .Aes256Gcm8 => 6
  | .Aes128Gcm12 => 7
  | .Aes256Gcm12 => 8
  | .Aes128CcmShort => 9
  | .Aes256CcmShort => 10
  | .Aes128CcmShort8 => 11
  | .Aes256CcmShort8 => 12
  | .Aes128CcmShort12 => 13
  | .Aes256CcmShort12 => 14
  | .AesSivCmac256 => 15
  | .AesSivCmac384 => 16
  | .AesSivCmac512 => 17
  | .Aes128Ccm8 => 18
  | .Aes256Ccm8 => 19
  | .Aes128OcbTaglen128 => 20
  | .Aes128OcbTaglen96 => 21
  | .Aes128OcbTaglen64 => 22
  | .Aes192OcbTaglen128 => 23
  | .Aes192OcbTaglen96 => 24
  | .Aes192OcbTaglen64 => 25
  | .Aes256OcbTaglen128 => 26
  | .Aes256OcbTaglen96 => 27
  | .Aes256OcbTaglen64 => 28
  | .Chacha20Poly1305 => 29
  | .Aes128GcmSiv => 30
  | .Aes256GcmSiv => 31
  | .Aegis128L => 32
  | .Aegis256 => 33
  | .Custom n => n

/-- Modelled from the spec: the `Serde_custom` derive instantiated at
`repr(u16)` is not among the sources (only its u8 counterpart
`derive_serde_custom_u8` is); per §4.3 the wire width is the declared repr,
so decoding reads a `u16` and maps named codes (0–33) to their variants. -/
def EncryptionAlgorithm.fromU16 (n : Nat) : EncryptionAlgorithm :=
  match n with
  | 0 => .None
  | 1 => .Aes128Gcm
  | 2 => .Aes256Gcm
  | 3 => .Aes128Ccm
  | 4 => .Aes256Ccm
  | 5 => .Aes128Gcm8
  | 6 => .Aes256Gcm8
  | 7 => .Aes128Gcm12
  | 8 => .Aes256Gcm12
  | 9 => .Aes128CcmShort
  | 10 => .Aes256CcmShort
  | 11 => .Aes128CcmShort8
  | 12 => .Aes256CcmShort8
  | 13 => .Aes128CcmShort12
  | 14 => .Aes256CcmShort12
  | 15 => .AesSivCmac256
  | 16 => .AesSivCmac384
  | 17 => .AesSivCmac512
  | 18 => .Aes128Ccm8
  | 19 => .Aes256Ccm8
  | 20 => .Aes128OcbTaglen128
  | 21 => .Aes128OcbTaglen96
  | 22 => .Aes128OcbTaglen64
  | 23 => .Aes192OcbTaglen128
  | 24 => .Aes192OcbTaglen96
  | 25 => .Aes192OcbTaglen64
  | 26 => .Aes256OcbTaglen128
  | 27 => .Aes256OcbTaglen96
  | 28 => .Aes256OcbTaglen64
  | 29 => .Chacha20Poly1305
  | 30 => .Aes128GcmSiv
  | 31 => .Aes256GcmSiv
  | 32 => .Aegis128L
  | 33 => .Aegis256
  | _ => .Custom n

def EncryptionAlgorithm.wt : EncryptionAlgorithm → Bool
  | .Custom n => decide (n < 65536)
  | _ => true

def EncryptionAlgorithm.noColl : EncryptionAlgorithm → Bool
  | .Custom n => decide (34 ≤ n)
  | _ => true

theorem EncryptionAlgorithm.fromU16_toU16 (a : EncryptionAlgorithm)
    (h : a.noColl = true) : EncryptionAlgorithm.fromU16 a.toU16 = a := by
  cases a with
  | Custom n =>
    simp only [EncryptionAlgorithm.noColl, decide_eq_true_eq] at h
    show EncryptionAlgorithm.fromU16 n = .Custom n
    unfold EncryptionAlgorithm.fromU16
    split <;> first | omega | rfl
  | _ => rfl

theorem EncryptionAlgorithm.toU16_lt (a : EncryptionAlgorithm) (h : a.wt = true) :
    a.toU16 < 65536 := by
  cases a with
  | Custom n => simpa [EncryptionAlgorithm.wt] using h
  | _ => simp [EncryptionAlgorithm.toU16]

inductive PartSemantics where
  | ChooseOne
  | SingleUnit
  | ProcessAll
  | Custom (n : Nat)
  deriving DecidableEq

def PartSemantics.toU8 : PartSemantics → Nat
  | .ChooseOne => 0
  | .SingleUnit => 1
  | .ProcessAll => 2
  | .Custom n => n

def PartSemantics.fromU8 (n : Nat) : PartSemantics :=
  match n with
  | 0 => .ChooseOne
  | 1 => .SingleUnit
  | 2 => .ProcessAll
  | _ => .Custom n

def PartSemantics.wt : PartSemantics → Bool
  | .Custom n => decide (n < 256)
  | _ => true

def PartSemantics.noColl : PartSemantics → Bool
  | .Custom n => decide (3 ≤ n)
  | _ => true

theorem partSemanticsFromU8_toU8 (s : PartSemantics) (h : s.noColl = true) :
    PartSemantics.fromU8 s.toU8 = s := by
  cases s with
  | Custom n =>
    simp only [PartSemantics.noColl, decide_eq_true_eq] at h
    show PartSemantics.fromU8 n = .Custom n
    unfold PartSemantics.fromU8
    split <;> first | omega | rfl
  | _ => rfl

theorem partSemanticsToU8_lt (s : PartSemantics) (h : s.wt = true) : s.toU8 < 256 := by
  cases s with
  | Custom n => simpa [PartSemantics.wt] using h
  | _ => simp [PartSemantics.toU8]

/-! ### Open-enum item codecs -/

def encDisposition (d : Disposition) : List Nat := encUint d.toU8

def decDisposition (buf : List Nat) : DecR (Disposition × List Nat) :=
  (decU8 buf).bind fun (n, rest) => .ok (Disposition.fromU8 n, rest)

def encHashAlgorithm (a : HashAlgorithm) : List Nat := encUint a.toU8

def decHashAlgorithm (buf : List Nat) : DecR (HashAlgorithm × List Nat) :=
  (decU8 buf).bind fun (n, rest) => .ok (HashAlgorithm.fromU8 n, rest)

def encEncryptionAlgorithm (a : EncryptionAlgorithm) : List Nat := encUint a.toU16

def decEncryptionAlgorithm (buf : List Nat) : DecR (EncryptionAlgorithm × List Nat) :=
  (decU16 buf).bind fun (n, rest) => .ok (EncryptionAlgorithm.fromU16 n, rest)

def encPartSemantics (s : PartSemantics) : List Nat := encUint s.toU8

def decPartSemantics (buf : List Nat) : DecR (PartSemantics × List Nat) :=
  (decU8 buf).bind fun (n, rest) => .ok (PartSemantics.fromU8 n, rest)

theorem decDisposition_enc (d : Disposition) (hwt : d.wt = true)
    (hnc : d.noColl = true) (rest : List Nat) :
    decDisposition (encDisposition d ++ rest) = .ok (d, rest) := by
  have hlt := dispositionToU8_lt d hwt
  rw [decDisposition, encDisposition, decU8,
    decUintW_encUint 256 d.toU8 hlt (by omega) rest, DecR.bind_ok]
  show DecR.ok (Disposition.fromU8 d.toU8, rest) = DecR.ok (d, rest)
  rw [dispositionFromU8_toU8 d hnc]

theorem decHashAlgorithm_enc (a : HashAlgorithm) (hwt : a.wt = true)
    (hnc : a.noColl = true) (rest : List Nat) :
    decHashAlgorithm (encHashAlgorithm a ++ rest) = .ok (a, rest) := by
  have hlt := hashAlgorithmToU8_lt a hwt
  rw [decHashAlgorithm, encHashAlgorithm, decU8,
    decUintW_encUint 256 a.toU8 hlt (by omega) rest, DecR.bind_ok]
  show DecR.ok (HashAlgorithm.fromU8 a.toU8, rest) = DecR.ok (a, rest)
  rw [hashAlgorithmFromU8_toU8 a hnc]

theorem decEncryptionAlgorithm_enc (a : EncryptionAlgorithm) (hwt : a.wt = true)
    (hnc : a.noColl = true) (rest : List Nat) :
    decEncryptionAlgorithm (encEncryptionAlgorithm a ++ rest) = .ok (a, rest) := by
  have hlt := EncryptionAlgorithm.toU16_lt a hwt
  rw [decEncryptionAlgorithm, encEncryptionAlgorithm, decU16,
    decUintW_encUint 65536 a.toU16 hlt (by omega) rest, DecR.bind_ok]
  show DecR.ok (EncryptionAlgorithm.fromU16 a.toU16, rest) = DecR.ok (a, rest)
  rw [EncryptionAlgorithm.fromU16_toU16 a hnc]

theorem decPartSemantics_enc (s : PartSemantics) (hwt : s.wt = true)
    (hnc : s.noColl = true) (rest : List Nat) :
    decPartSemantics (encPartSemantics s ++ rest) = .ok (s, rest) := by
  have hlt := partSemanticsToU8_lt s hwt
  rw [decPartSemantics, encPartSemantics, decU8,
    decUintW_encUint 256 s.toU8 hlt (by omega) rest, DecR.bind_ok]
  show DecR.ok (PartSemantics.fromU8 s.toU8, rest) = DecR.ok (s, rest)
  rw [partSemanticsFromU8_toU8 s hnc]

/-! ## CBOR values (`ciborium::Value`)

Extension-map values are arbitrary CBOR values, and `Timestamp` and
`ExtensionName` decode via `ciborium::Value`.  The model covers integers
(`[-2^64, 2^64)`, major types 0/1), byte strings, text strings, arrays, maps
(order- and duplicate-preserving pair lists), tags, booleans and null.
Floating-point items are outside the model (see the header). -/

mutual
inductive Value where
  | integer (i : Int)
  | bytes (b : List Nat)
  | text (s : List Nat)
  | array (xs : ValueList)
  | map (m : ValuePairs)
  | tag (n : Nat) (v : Value)
  | bool (b : Bool)
  | null
  deriving DecidableEq
inductive ValueList where
  | nil
  | cons (hd : Value) (tl : ValueList)
  deriving DecidableEq
inductive ValuePairs where
  | nil
  | cons (k : Value) (v : Value) (tl : ValuePairs)
  deriving DecidableEq
end

def ValueList.length : ValueList → Nat
  | .nil => 0
  | .cons _ tl => tl.length + 1

def ValuePairs.length : ValuePairs → Nat
  | .nil => 0
  | .cons _ _ tl => tl.length + 1

mutual

def encValue : Value → List Nat
  | .integer i => encInt i
  | .bytes b => encBytes b
  | .text s => encText s
  | .array xs => cborHead 4 xs.length ++ encValueList xs
  | .map m => cborHead 5 m.length ++ encValuePairs m
  | .tag n v => cborHead 6 n ++ encValue v
  | .bool b => encBool b
  | .null => encNull

def encValueList : ValueList → List Nat
  | .nil => []
  | .cons hd tl => encValue hd ++ encValueList tl

def encValuePairs : ValuePairs → List Nat
  | .nil => []
  | .cons k v tl => encValue k ++ encValue v ++ encValuePairs tl

end

mutual

/-- Well-typedness of a CBOR value: integers fit the wire range
`[-2^64, 2^64)`, byte/text contents are bytes (text valid UTF-8), and all
lengths and tag numbers fit 64 bits — all guaranteed by the Rust types. -/
def Value.wt : Value → Bool
  | .integer i => decide (-(18446744073709551616 : Int) ≤ i ∧
      i < 18446744073709551616)
  | .bytes b => decide (b.length < 18446744073709551616) &&
      b.all (fun x => decide (x < 256))
  | .text s => validUtf8 s && decide (s.length < 18446744073709551616)
  | .array xs => decide (xs.length < 18446744073709551616) && ValueList.wt xs
  | .map m => decide (m.length < 18446744073709551616) && ValuePairs.wt m
  | .tag n v => decide (n < 18446744073709551616) && Value.wt v
  | .bool _ => true
  | .null => true

def ValueList.wt : ValueList → Bool
  | .nil => true
  | .cons hd tl => hd.wt && tl.wt

def ValuePairs.wt : ValuePairs → Bool
  | .nil => true
  | .cons k v tl => k.wt && v.wt && tl.wt

end

mutual

/-- Nesting depth of a value; the fuel needed by the decoder. -/
def Value.depth : Value → Nat
  | .array xs => xs.depth + 1
  | .map m => m.depth + 1
  | .tag _ v => v.depth + 1
  | _ => 1

def ValueList.depth : ValueList → Nat
  | .nil => 0
  | .cons hd tl => max hd.depth tl.depth

def ValuePairs.depth : ValuePairs → Nat
  | .nil => 0
  | .cons k v tl => max (max k.depth v.depth) tl.depth

end

theorem valueDepth_pos (v : Value) : 1 ≤ v.depth := by
  cases v <;> simp [Value.depth]

/-- Decode `count` consecutive values (the elements of an array). -/
def decValueN (dec : List Nat → DecR (Value × List Nat)) :
    Nat → List Nat → DecR (ValueList × List Nat)
  | 0, buf => .ok (.nil, buf)
  | count + 1, buf =>
    (dec buf).bind fun (v, rest) =>
    (decValueN dec count rest).bind fun (vs, rest) =>
    .ok (.cons v vs, rest)

/-- Decode `count` consecutive key/value pairs (the entries of a map). -/
def decValuePairsN (dec : List Nat → DecR (Value × List Nat)) :
    Nat → List Nat → DecR (ValuePairs × List Nat)
  | 0, buf => .ok (.nil, buf)
  | count + 1, buf =>
    (dec buf).bind fun (k, rest) =>
    (dec rest).bind fun (v, rest) =>
    (decValuePairsN dec count rest).bind fun (m, rest) =>
    .ok (.cons k v m, rest)

/-- Decode one CBOR value (`ciborium::Value::deserialize`), with fuel
bounding the nesting depth (an artifact of the embedding, never exhausted on
the inputs the theorems below evaluate it on). -/
def decValue : Nat → List Nat → DecR (Value × List Nat)
  | 0, _ => .fail
  | fuel + 1, buf =>
    (decHead buf).bind fun ((major, arg), rest) =>
    match major with
    | 0 => .ok (.integer arg, rest)
    | 1 => .ok (.integer (-1 - (arg : Int)), rest)
    | 2 =>
      match readN arg rest with
      | some (b, rest) => .ok (.bytes b, rest)
      | none => .fail
    | 3 =>
      match readN arg rest with
      | some (s, rest) => if validUtf8 s then .ok (.text s, rest) else .fail
      | none => .fail
    | 4 => (decValueN (decValue fuel) arg rest).bind fun (xs, rest) =>
        .ok (.array xs, rest)
    | 5 => (decValuePairsN (decValue fuel) arg rest).bind fun (m, rest) =>
        .ok (.map m, rest)
    | 6 => (decValue fuel rest).bind fun (v, rest) => .ok (.tag arg v, rest)
    | 7 =>
      if arg = 20 then .ok (.bool false, rest)
      else if arg = 21 then .ok (.bool true, rest)
      else if arg = 22 then .ok (.null, rest)
      else .fail
    | _ => .fail

mutual

theorem decValue_encValue (fuel : Nat) (v : Value) (hwt : v.wt = true)
    (hdep : v.depth ≤ fuel + 1) (rest : List Nat) :
    decValue (fuel + 1) (encValue v ++ rest) = .ok (v, rest) := by
  cases v with
  | integer i =>
    simp only [Value.wt, decide_eq_true_eq] at hwt
    by_cases hpos : 0 ≤ i
    · have ht : i.toNat < 2 ^ 64 := by omega
      rw [encValue, encInt, if_pos hpos, decValue,
        decHead_cborHead 0 i.toNat ht rest]
      simp [Int.toNat_of_nonneg hpos]
    · have ht : (-1 - i).toNat < 2 ^ 64 := by omega
      rw [encValue, encInt, if_neg hpos, decValue,
        decHead_cborHead 1 (-1 - i).toNat ht rest]
      simp only [DecR.bind_ok]
      have : -1 - ((-1 - i).toNat : Int) = i := by omega
      show DecR.ok (Value.integer (-1 - ((-1 - i).toNat : Int)), rest) =
        DecR.ok (Value.integer i, rest)
      rw [this]
  | bytes b =>
    simp only [Value.wt, Bool.and_eq_true, decide_eq_true_eq] at hwt
    rw [encValue, encBytes, List.append_assoc, decValue,
      decHead_cborHead 2 b.length (by exact_mod_cast hwt.1) (b ++ rest)]
    simp [readN_append]
  | text s =>
    simp only [Value.wt, Bool.and_eq_true, decide_eq_true_eq] at hwt
    rw [encValue, encText, List.append_assoc, decValue,
      decHead_cborHead 3 s.length (by exact_mod_cast hwt.2) (s ++ rest)]
    simp [readN_append, hwt.1]
  | array xs =>
    simp only [Value.wt, Bool.and_eq_true, decide_eq_true_eq] at hwt
    have hdep' : xs.depth ≤ fuel := by
      simp only [Value.depth] at hdep; omega
    rw [encValue, List.append_assoc, decValue,
      decHead_cborHead 4 xs.length (by exact_mod_cast hwt.1) _]
    simp only [DecR.bind_ok]
    rw [decValueN_encValueList fuel xs hwt.2 hdep' rest]
    rfl
  | map m =>
    simp only [Value.wt, Bool.and_eq_true, decide_eq_true_eq] at hwt
    have hdep' : m.depth ≤ fuel := by
      simp only [Value.depth] at hdep; omega
    rw [encValue, List.append_assoc, decValue,
      decHead_cborHead 5 m.length (by exact_mod_cast hwt.1) _]
    simp only [DecR.bind_ok]
    rw [decValuePairsN_encValuePairs fuel m hwt.2 hdep' rest]
    rfl
  | tag n v =>
    simp only [Value.wt, Bool.and_eq_true, decide_eq_true_eq] at hwt
    have hdep' : v.depth ≤ fuel := by
      simp only [Value.depth] at hdep; omega
    rw [encValue, List.append_assoc, decValue,
      decHead_cborHead 6 n (by exact_mod_cast hwt.1) _]
    simp only [DecR.bind_ok]
    cases fuel with
    | zero =>
      have : v.depth = 0 := by omega
      cases v <;> simp [Value.depth] at this
    | succ fuel' =>
      rw [decValue_encValue fuel' v hwt.2 hdep' rest]
      rfl
  | bool b => cases b <;> rfl
  | null => rfl

theorem decValueN_encValueList (fuel : Nat) (xs : ValueList)
    (hwt : xs.wt = true) (hdep : xs.depth ≤ fuel) (rest : List Nat) :
    decValueN (decValue fuel) xs.length (encValueList xs ++ rest) =
      .ok (xs, rest) := by
  cases xs with
  | nil => rfl
  | cons hd tl =>
    simp only [ValueList.wt, Bool.and_eq_true] at hwt
    simp only [ValueList.depth] at hdep
    have h1 : hd.depth ≤ fuel := le_trans (le_max_left _ _) hdep
    have h2 : tl.depth ≤ fuel := le_trans (le_max_right _ _) hdep
    have hf : 1 ≤ fuel := le_trans (valueDepth_pos hd) h1
    obtain ⟨fuel', rfl⟩ : ∃ k, fuel = k + 1 := ⟨fuel - 1, by omega⟩
    rw [ValueList.length, encValueList, List.append_assoc, decValueN,
      decValue_encValue fuel' hd hwt.1 h1 _]
    simp only [DecR.bind_ok]
    rw [decValueN_encValueList (fuel' + 1) tl hwt.2 h2 rest]
    rfl

theorem decValuePairsN_encValuePairs (fuel : Nat) (m : ValuePairs)
    (hwt : m.wt = true) (hdep : m.depth ≤ fuel) (rest : List Nat) :
    decValuePairsN (decValue fuel) m.length (encValuePairs m ++ rest) =
      .ok (m, rest) := by
  cases m with
  | nil => rfl
  | cons k v tl =>
    simp only [ValuePairs.wt, Bool.and_eq_true] at hwt
    simp only [ValuePairs.depth] at hdep
    have h1 : k.depth ≤ fuel := le_trans (le_trans (le_max_left _ _) (le_max_left _ _)) hdep
    have h2 : v.depth ≤ fuel := le_trans (le_trans (le_max_right _ _) (le_max_left _ _)) hdep
    have h3 : tl.depth ≤ fuel := le_trans (le_max_right _ _) hdep
    have hf : 1 ≤ fuel := le_trans (valueDepth_pos k) h1
    obtain ⟨fuel', rfl⟩ : ∃ w, fuel = w + 1 := ⟨fuel - 1, by omega⟩
    rw [ValuePairs.length, encValuePairs, List.append_assoc, List.append_assoc,
      decValuePairsN, decValue_encValue fuel' k hwt.1.1 h1 _]
    simp only [DecR.bind_ok]
    rw [decValue_encValue fuel' v hwt.1.2 h2 _]
    simp only [DecR.bind_ok]
    rw [decValuePairsN_encValuePairs (fuel' + 1) tl hwt.2 h3 rest]
    rfl

end

/-! ## Extension names and the extension map

`ExtensionName` is `Text(String) | Number(Integer)`; it serializes by
conversion to a CBOR value (`into_value`) and deserializes by reading a CBOR
value and converting back (`from_value`).  The `extensions` field is a
`BTreeMap<ExtensionName, ciborium::Value>`: iteration (and hence emission)
follows the derived `Ord`, which compares the declaration order of the
variants first — `Text` before `Number` — then compares `String`s
byte-lexicographically and `Integer`s numerically. -/

inductive ExtensionName where
  | Text (s : List Nat)
  | Number (i : Int)
  deriving DecidableEq

def ExtensionName.into_value : ExtensionName → Value
  | .Text s => .text s
  | .Number i => .integer i

def ExtensionName.from_value : Value → Option ExtensionName
  | .text s => some (.Text s)
  | .integer i => some (.Number i)
  | _ => none

/-- Byte-lexicographic strict order on byte strings (Rust `String`'s `Ord`). -/
def lexLtBytes : List Nat → List Nat → Bool
  | [], [] => false
  | [], _ :: _ => true
  | _ :: _, [] => false
  | x :: xs, y :: ys => if x < y then true else if x = y then lexLtBytes xs ys else false

/-- The derived `Ord` on `ExtensionName` (declaration order first:
`Text` sorts before `Number`). -/
def ExtensionName.lt : ExtensionName → ExtensionName → Bool
  | .Text s, .Text t => lexLtBytes s t
  | .Text _, .Number _ => true
  | .Number _, .Text _ => false
  | .Number i, .Number j => decide (i < j)

theorem lexLtBytes_irrefl (a : List Nat) : lexLtBytes a a = false := by
  induction a with
  | nil => rfl
  | cons x xs ih => simp [lexLtBytes, ih]

theorem lexLtBytes_asymm (a b : List Nat) (h : lexLtBytes a b = true) :
    lexLtBytes b a = false := by
  induction a generalizing b with
  | nil =>
    cases b with
    | nil => simp [lexLtBytes] at h
    | cons y ys => rfl
  | cons x xs ih =>
    cases b with
    | nil => simp [lexLtBytes] at h
    | cons y ys =>
      simp only [lexLtBytes] at h ⊢
      by_cases hxy : x < y
      · have h1 : ¬y < x := by omega
        have h2 : y ≠ x := by omega
        simp [h1, h2]
      · simp only [hxy, if_false] at h
        by_cases heq : x = y
        · subst heq
          simp only [if_pos rfl] at h
          simp [lexLtBytes_irrefl, ih ys h]
        · simp [heq] at h

theorem lexLtBytes_trans (a b c : List Nat) (h1 : lexLtBytes a b = true)
    (h2 : lexLtBytes b c = true) : lexLtBytes a c = true := by
  induction a generalizing b c with
  | nil =>
    cases b with
    | nil => simp [lexLtBytes] at h1
    | cons y ys =>
      cases c with
      | nil => simp [lexLtBytes] at h2
      | cons z zs => rfl
  | cons x xs ih =>
    cases b with
    | nil => simp [lexLtBytes] at h1
    | cons y ys =>
      cases c with
      | nil => simp [lexLtBytes] at h2
      | cons z zs =>
        simp only [lexLtBytes] at h1 h2 ⊢
        by_cases hxy : x < y <;> by_cases hyz : y < z
        · have : x < z := by omega
          simp [this]
        · simp only [hyz, if_false] at h2
          by_cases hyzeq : y = z
          · subst hyzeq
            simp [hxy]
          · simp [hyzeq] at h2
        · simp only [hxy, if_false] at h1
          by_cases hxyeq : x = y
          · subst hxyeq
            simp [hyz]
          · simp [hxyeq] at h1
        · simp only [hxy, if_false] at h1
          simp only [hyz, if_false] at h2
          by_cases hxyeq : x = y
          · subst hxyeq
            by_cases hyzeq : x = z
            · subst hyzeq
              simp only [lt_irrefl, if_false, if_true] at h1 h2 ⊢
              exact ih ys zs h1 h2
            · simp [hyzeq] at h2
          · simp [hxyeq] at h1

theorem ExtensionName.lt_irrefl (k : ExtensionName) : ExtensionName.lt k k = false := by
  cases k with
  | Text s => simp [ExtensionName.lt, lexLtBytes_irrefl]
  | Number i => simp [ExtensionName.lt]

theorem ExtensionName.lt_asymm (a b : ExtensionName)
    (h : ExtensionName.lt a b = true) : ExtensionName.lt b a = false := by
  cases a <;> cases b <;> simp_all [ExtensionName.lt]
  · exact lexLtBytes_asymm _ _ h
  · omega

theorem ExtensionName.lt_trans (a b c : ExtensionName)
    (h1 : ExtensionName.lt a b = true) (h2 : ExtensionName.lt b c = true) :
    ExtensionName.lt a c = true := by
  cases a <;> cases b <;> cases c <;> simp_all [ExtensionName.lt]
  · exact lexLtBytes_trans _ _ _ h1 h2
  · omega

theorem ExtensionName.lt_ne (a b : ExtensionName)
    (h : ExtensionName.lt a b = true) : a ≠ b := by
  intro heq
  subst heq
  rw [ExtensionName.lt_irrefl] at h
  exact Bool.false_ne_true h

def ExtensionName.wt : ExtensionName → Bool
  | .Text s => validUtf8 s && decide (s.length < 18446744073709551616)
  | .Number i => decide (-(18446744073709551616 : Int) ≤ i ∧
      i < 18446744073709551616)

theorem ExtensionName.wt_into_value (k : ExtensionName) (h : k.wt = true) :
    k.into_value.wt = true := by
  cases k with
  | Text s => simpa [ExtensionName.wt, ExtensionName.into_value, Value.wt] using h
  | Number i => simpa [ExtensionName.wt, ExtensionName.into_value, Value.wt] using h

theorem ExtensionName.depth_into_value (k : ExtensionName) :
    k.into_value.depth = 1 := by
  cases k <;> rfl

theorem ExtensionName.from_value_into_value (k : ExtensionName) :
    ExtensionName.from_value k.into_value = some k := by
  cases k <;> rfl

/-- Emission of the extension map entries, in the order of the in-memory
(sorted) association list, each entry a bare key item followed by the value. -/
def encExtEntries : List (ExtensionName × Value) → List Nat
  | [] => []
  | (k, v) :: tl => encValue k.into_value ++ encValue v ++ encExtEntries tl

/-- The extension map: a CBOR map head followed by the entries. -/
def encExtensions (l : List (ExtensionName × Value)) : List Nat :=
  cborHead 5 l.length ++ encExtEntries l

/-- `BTreeMap::insert`: ordered insertion, replacing an equal key. -/
def insertExt (k : ExtensionName) (v : Value) :
    List (ExtensionName × Value) → List (ExtensionName × Value)
  | [] => [(k, v)]
  | (k', v') :: tl =>
    if ExtensionName.lt k k' then (k, v) :: (k', v') :: tl
    else if k = k' then (k, v) :: tl
    else (k', v') :: insertExt k v tl

/-- Decode `count` map entries, inserting each into the accumulating map
(serde's `BTreeMap` visitor). -/
def decExtEntries (fuel : Nat) :
    Nat → List Nat → List (ExtensionName × Value) →
      DecR (List (ExtensionName × Value) × List Nat)
  | 0, buf, acc => .ok (acc, buf)
  | count + 1, buf, acc =>
    (decValue fuel buf).bind fun (kv, rest) =>
    match ExtensionName.from_value kv with
    | some k =>
      (decValue fuel rest).bind fun (v, rest) =>
      decExtEntries fuel count rest (insertExt k v acc)
    | none => .fail

def decExtensions (fuel : Nat) (buf : List Nat) :
    DecR (List (ExtensionName × Value) × List Nat) :=
  (decHead buf).bind fun ((major, n), rest) =>
  if major = 5 then decExtEntries fuel n rest [] else .fail

/-- Strict ascending sortedness of the association list — the `BTreeMap`
iteration-order invariant. -/
def extsSorted : List (ExtensionName × Value) → Bool
  | [] => true
  | [_] => true
  | a :: b :: tl => ExtensionName.lt a.1 b.1 && extsSorted (b :: tl)

def extsWt : List (ExtensionName × Value) → Bool
  | [] => true
  | (k, v) :: tl => k.wt && v.wt && extsWt tl

def extsDepth : List (ExtensionName × Value) → Nat
  | [] => 0
  | (_, v) :: tl => max v.depth (extsDepth tl)

theorem extsSorted_tail (a : ExtensionName × Value) (tl : List (ExtensionName × Value))
    (h : extsSorted (a :: tl) = true) : extsSorted tl = true := by
  cases tl with
  | nil => rfl
  | cons b tl' =>
    simp only [extsSorted, Bool.and_eq_true] at h
    exact h.2

theorem extsSorted_head_lt (a : ExtensionName × Value)
    (tl : List (ExtensionName × Value)) (h : extsSorted (a :: tl) = true) :
    ∀ q ∈ tl, ExtensionName.lt a.1 q.1 = true := by
  induction tl generalizing a with
  | nil => intro q hq; cases hq
  | cons b tl' ih =>
    intro q hq
    simp only [extsSorted, Bool.and_eq_true] at h
    rcases List.mem_cons.mp hq with rfl | hq'
    · exact h.1
    · exact ExtensionName.lt_trans _ _ _ h.1 (ih b h.2 q hq')

theorem insertExt_append (k : ExtensionName) (v : Value)
    (l : List (ExtensionName × Value))
    (h : ∀ p ∈ l, ExtensionName.lt p.1 k = true) :
    insertExt k v l = l ++ [(k, v)] := by
  induction l with
  | nil => rfl
  | cons p tl ih =>
    have hp : ExtensionName.lt p.1 k = true := h p (by simp)
    have h1 : ExtensionName.lt k p.1 = false := ExtensionName.lt_asymm _ _ hp
    have h2 : k ≠ p.1 := fun heq => (ExtensionName.lt_ne _ _ hp) (by rw [heq])
    obtain ⟨k', v'⟩ := p
    rw [insertExt, if_neg (by simp [h1]), if_neg h2, ih (fun q hq => h q (by simp [hq]))]
    rfl

theorem decExtEntries_enc (fuel : Nat) (l : List (ExtensionName × Value))
    (hs : extsSorted l = true) (hw : extsWt l = true)
    (hf : 1 ≤ fuel) (hd : extsDepth l ≤ fuel)
    (acc : List (ExtensionName × Value))
    (hacc : ∀ p ∈ acc, ∀ q ∈ l, ExtensionName.lt p.1 q.1 = true)
    (rest : List Nat) :
    decExtEntries fuel l.length (encExtEntries l ++ rest) acc = .ok (acc ++ l, rest) := by
  induction l generalizing acc with
  | nil => simp [decExtEntries, encExtEntries]
  | cons p tl ih =>
    obtain ⟨k, v⟩ := p
    simp only [extsWt, Bool.and_eq_true] at hw
    simp only [extsDepth, max_le_iff] at hd
    obtain ⟨fuel', rfl⟩ : ∃ w, fuel = w + 1 := ⟨fuel - 1, by omega⟩
    have hkd : k.into_value.depth ≤ fuel' + 1 := by
      rw [ExtensionName.depth_into_value]
      omega
    rw [List.length_cons, encExtEntries, List.append_assoc, List.append_assoc,
      decExtEntries,
      decValue_encValue fuel' k.into_value (ExtensionName.wt_into_value k hw.1.1) hkd _]
    simp only [DecR.bind_ok]
    rw [ExtensionName.from_value_into_value k]
    rw [decValue_encValue fuel' v hw.1.2 hd.1 _]
    simp only [DecR.bind_ok]
    have hins : insertExt k v acc = acc ++ [(k, v)] :=
      insertExt_append k v acc (fun p hp => hacc p hp (k, v) (by simp))
    have ihr := ih (extsSorted_tail _ _ hs) hw.2 hd.2 (acc ++ [(k, v)]) (by
      intro p hp q hq
      rcases List.mem_append.mp hp with hp' | hp'
      · exact hacc p hp' q (by simp [hq])
      · have hpkv : p = (k, v) := by simpa using hp'
        subst hpkv
        exact extsSorted_head_lt (k, v) tl hs q hq)
    rw [hins, ihr]
    simp

theorem decExtensions_enc (fuel : Nat) (l : List (ExtensionName × Value))
    (hs : extsSorted l = true) (hw : extsWt l = true)
    (hf : 1 ≤ fuel) (hd : extsDepth l ≤ fuel)
    (hlen : l.length < 2 ^ 64) (rest : List Nat) :
    decExtensions fuel (encExtensions l ++ rest) = .ok (l, rest) := by
  rw [decExtensions, encExtensions, List.append_assoc,
    decHead_cborHead 5 l.length hlen _]
  simp only [DecR.bind_ok, if_pos rfl]
  have := decExtEntries_enc fuel l hs hw hf hd [] (by intro p hp; cases hp) rest
  simpa using this

/-! ## Positional sequence decoding (the `Serde_list` visitor)

A definite-length CBOR array provides a count of elements; `Seq` tracks how
many remain alongside the byte buffer.  `next_element()` yields `None` once
the count is exhausted (the derive turns that into an `invalid_length`
error), and after the last declared field the derive *asserts* that no
element remains: a remaining element that parses as `u8` trips the assert
(a panic), and one that does not parse as `u8` surfaces as a decode error. -/

structure Seq where
  rem : Nat
  buf : List Nat
  deriving DecidableEq

/-- `seq.next_element()?.ok_or_else(invalid_length)?` for one field. -/
def nextReq (dec : List Nat → DecR (α × List Nat)) (s : Seq) : DecR (α × Seq) :=
  match s.rem with
  | 0 => .fail
  | r + 1 =>
    (dec s.buf).bind fun (a, rest) => .ok (a, ⟨r, rest⟩)

/-- The trailing-elements check:
`assert!(seq.next_element::<u8>()?.is_none(), "parsing finished with data remaining")`. -/
def trailCheck (s : Seq) : DecR (List Nat) :=
  match s.rem with
  | 0 => .ok s.buf
  | _ + 1 =>
    match decU8 s.buf with
    | .ok _ => .panicked
    | .fail => .fail
    | .panicked => .panicked

theorem nextReq_ok (dec : List Nat → DecR (α × List Nat)) (r : Nat)
    (buf rest : List Nat) (a : α) (h : dec buf = .ok (a, rest)) :
    nextReq dec ⟨r + 1, buf⟩ = .ok (a, ⟨r, rest⟩) := by
  simp [nextReq, h]

theorem trailCheck_zero (buf : List Nat) : trailCheck ⟨0, buf⟩ = .ok buf := rfl

/-! ## `Expiration` -/

structure Expiration where
  relative : Bool
  time : Nat
  deriving DecidableEq

def Expiration.wt (e : Expiration) : Bool := decide (e.time < 4294967296)

def encExpiration (e : Expiration) : List Nat :=
  cborHead 4 2 ++ encBool e.relative ++ encUint e.time

def decExpiration (buf : List Nat) : DecR (Expiration × List Nat) :=
  (decHead buf).bind fun ((major, n), rest) =>
  if major = 4 then
    (nextReq decBool ⟨n, rest⟩).bind fun (relative, s) =>
    (nextReq decU32 s).bind fun (time, s) =>
    (trailCheck s).bind fun rest =>
    .ok (⟨relative, time⟩, rest)
  else .fail

theorem decExpiration_enc (e : Expiration) (hw : e.wt = true) (rest : List Nat) :
    decExpiration (encExpiration e ++ rest) = .ok (e, rest) := by
  simp only [Expiration.wt, decide_eq_true_eq] at hw
  rw [decExpiration, encExpiration, List.append_assoc, List.append_assoc,
    decHead_cborHead 4 2 (by norm_num) _]
  simp only [DecR.bind_ok, if_pos rfl]
  rw [nextReq_ok decBool 1 _ _ e.relative (decBool_encBool e.relative _)]
  simp only [DecR.bind_ok]
  rw [nextReq_ok decU32 0 _ _ e.time (decUintW_encUint 4294967296 e.time hw (by omega) rest)]
  simp only [DecR.bind_ok]
  rw [trailCheck_zero]
  rfl

/-! ## `NestedPart` and `NestedPartContent`

`NestedPart` is a `Serde_list` record (`disposition`, `language`, then the
`#[externally_tagged] part`): its array length is `2 + 1 + fields(variant)`,
the externally tagged field contributing the `u8` discriminator followed by
the active variant's fields spliced into the same array. -/

/-- String well-formedness: the invariants of a Rust `String` (valid UTF-8)
plus the physical length bound. -/
def strWt (s : List Nat) : Bool := validUtf8 s && decide (s.length < 18446744073709551616)

/-- Byte-buffer well-formedness: the invariants of a Rust `Vec<u8>`. -/
def bytesWt (b : List Nat) : Bool :=
  decide (b.length < 18446744073709551616) && b.all (fun x => decide (x < 256))

mutual
inductive NestedPart where
  | mk (disposition : Disposition) (language : List Nat) (part : NestedPartContent)
  deriving DecidableEq
inductive NestedPartContent where
  | NullPart
  | SinglePart (content_type : List Nat) (content : List Nat)
  | ExternalPart (content_type : List Nat) (url : List Nat) (expires : Nat)
      (size : Nat) (enc_alg : EncryptionAlgorithm) (key : List Nat)
      (nonce : List Nat) (aad : List Nat) (hash_alg : HashAlgorithm)
      (content_hash : List Nat) (description : List Nat) (filename : List Nat)
  | MultiPart (part_semantics : PartSemantics) (parts : NestedPartList)
  deriving DecidableEq
inductive NestedPartList where
  | nil
  | cons (hd : NestedPart) (tl : NestedPartList)
  deriving DecidableEq
end

def NestedPart.disposition : NestedPart → Disposition
  | .mk d _ _ => d

def NestedPart.language : NestedPart → List Nat
  | .mk _ lang _ => lang

def NestedPart.part : NestedPart → NestedPartContent
  | .mk _ _ p => p

def NestedPartList.length : NestedPartList → Nat
  | .nil => 0
  | .cons _ tl => tl.length + 1

/-- `ExternallyTagged::num_fields`: the field count of the active variant. -/
def NestedPartContent.num_fields : NestedPartContent → Nat
  | .NullPart => 0
  | .SinglePart _ _ => 2
  | .ExternalPart _ _ _ _ _ _ _ _ _ _ _ _ => 12
  | .MultiPart _ _ => 2

mutual

/-- Serialization of a `NestedPart`: an array head of
`2 + 1 + fields(variant)` followed by the two plain fields and the inlined
discriminator/variant fields (`Serde_list` + `ExternallyTagged` serialize). -/
def encNestedPart : NestedPart → List Nat
  | .mk d lang p =>
    cborHead 4 (2 + 1 + p.num_fields) ++ encDisposition d ++ encText lang ++
      encPartContent p

/-- `ExternallyTagged::serialize_fields`: the `u8` discriminator followed by
the variant's fields in declaration order. -/
def encPartContent : NestedPartContent → List Nat
  | .NullPart => encUint 0
  | .SinglePart ct content => encUint 1 ++ encText ct ++ encBytes content
  | .ExternalPart ct url expires size ea key nonce aad ha chash desc fname =>
    encUint 2 ++ encText ct ++ encText url ++ encUint expires ++ encUint size ++
      encEncryptionAlgorithm ea ++ encBytes key ++ encBytes nonce ++
      encBytes aad ++ encHashAlgorithm ha ++ encBytes chash ++ encText desc ++
      encText fname
  | .MultiPart sem parts =>
    encUint 3 ++ encPartSemantics sem ++ cborHead 4 parts.length ++
      encNestedPartList parts

def encNestedPartList : NestedPartList → List Nat
  | .nil => []
  | .cons hd tl => encNestedPart hd ++ encNestedPartList tl

end

mutual

def NestedPart.wt : NestedPart → Bool
  | .mk d lang p => d.wt && (strWt lang && p.wt)

def NestedPartContent.wt : NestedPartContent → Bool
  | .NullPart => true
  | .SinglePart ct content => strWt ct && bytesWt content
  | .ExternalPart ct url expires size ea key nonce aad ha chash desc fname =>
    strWt ct && (strWt url && (decide (expires < 4294967296) &&
      (decide (size < 18446744073709551616) && (ea.wt && (bytesWt key &&
      (bytesWt nonce && (bytesWt aad && (ha.wt && (bytesWt chash &&
      (strWt desc && strWt fname))))))))))
  | .MultiPart sem parts =>
    sem.wt && (decide (parts.length < 18446744073709551616) && parts.wt)

def NestedPartList.wt : NestedPartList → Bool
  | .nil => true
  | .cons hd tl => hd.wt && tl.wt

end

mutual

def NestedPart.noColl : NestedPart → Bool
  | .mk d _ p => d.noColl && p.noColl

def NestedPartContent.noColl : NestedPartContent → Bool
  | .NullPart => true
  | .SinglePart _ _ => true
  | .ExternalPart _ _ _ _ ea _ _ _ ha _ _ _ => ea.noColl && ha.noColl
  | .MultiPart sem parts => sem.noColl && parts.noColl

def NestedPartList.noColl : NestedPartList → Bool
  | .nil => true
  | .cons hd tl => hd.noColl && tl.noColl

end

mutual

def NestedPart.depth : NestedPart → Nat
  | .mk _ _ p => p.depth + 1

def NestedPartContent.depth : NestedPartContent → Nat
  | .MultiPart _ parts => parts.depth
  | _ => 0

def NestedPartList.depth : NestedPartList → Nat
  | .nil => 0
  | .cons hd tl => max hd.depth tl.depth

end

theorem nestedPartDepth_pos (np : NestedPart) : 1 ≤ np.depth := by
  cases np
  simp [NestedPart.depth]

/-- Decode `count` consecutive nested parts (the elements of a
`Vec<NestedPart>`). -/
def decNestedPartN (decNP : List Nat → DecR (NestedPart × List Nat)) :
    Nat → List Nat → DecR (NestedPartList × List Nat)
  | 0, buf => .ok (.nil, buf)
  | count + 1, buf =>
    (decNP buf).bind fun (p, rest) =>
    (decNestedPartN decNP count rest).bind fun (ps, rest) =>
    .ok (.cons p ps, rest)

/-- Decode a `Vec<NestedPart>` (one array item). -/
def decParts (decNP : List Nat → DecR (NestedPart × List Nat)) (buf : List Nat) :
    DecR (NestedPartList × List Nat) :=
  (decHead buf).bind fun ((major, n), rest) =>
  if major = 4 then decNestedPartN decNP n rest else .fail

/-- `ExternallyTagged::deserialize_fields`: pull the `u8` discriminator, then
the matching variant's fields; an unmatched discriminator is an error. -/
def decPartContentFields (decNP : List Nat → DecR (NestedPart × List Nat))
    (s : Seq) : DecR (NestedPartContent × Seq) :=
  (nextReq decU8 s).bind fun (disc, s) =>
  match disc with
  | 0 => .ok (.NullPart, s)
  | 1 =>
    (nextReq decText s).bind fun (ct, s) =>
    (nextReq decBytes s).bind fun (content, s) =>
    .ok (.SinglePart ct content, s)
  | 2 =>
    (nextReq decText s).bind fun (ct, s) =>
    (nextReq decText s).bind fun (url, s) =>
    (nextReq decU32 s).bind fun (expires, s) =>
    (nextReq decU64 s).bind fun (size, s) =>
    (nextReq decEncryptionAlgorithm s).bind fun (ea, s) =>
    (nextReq decBytes s).bind fun (key, s) =>
    (nextReq decBytes s).bind fun (nonce, s) =>
    (nextReq decBytes s).bind fun (aad, s) =>
    (nextReq decHashAlgorithm s).bind fun (ha, s) =>
    (nextReq decBytes s).bind fun (chash, s) =>
    (nextReq decText s).bind fun (desc, s) =>
    (nextReq decText s).bind fun (fname, s) =>
    .ok (.ExternalPart ct url expires size ea key nonce aad ha chash desc fname, s)
  | 3 =>
    (nextReq decPartSemantics s).bind fun (sem, s) =>
    (nextReq (decParts decNP) s).bind fun (parts, s) =>
    .ok (.MultiPart sem parts, s)
  | _ => .fail

/-- Decode a `NestedPart` (its own `Serde_list` visitor): array head, the two
plain fields, the externally tagged content, then the trailing-elements
assert. -/
def decNestedPart : Nat → List Nat → DecR (NestedPart × List Nat)
  | 0, _ => .fail
  | fuel + 1, buf =>
    (decHead buf).bind fun ((major, n), rest) =>
    if major = 4 then
      (nextReq decDisposition ⟨n, rest⟩).bind fun (d, s) =>
      (nextReq decText s).bind fun (lang, s) =>
      (decPartContentFields (decNestedPart fuel) s).bind fun (p, s) =>
      (trailCheck s).bind fun rest =>
      .ok (.mk d lang p, rest)
    else .fail

theorem nextReqSplit (dec : List Nat → DecR (α × List Nat)) (rem r : Nat)
    (hrem : rem = r + 1) (buf : List Nat) (a : α) (rest : List Nat)
    (h : dec buf = .ok (a, rest)) : nextReq dec ⟨rem, buf⟩ = .ok (a, ⟨r, rest⟩) := by
  subst hrem
  exact nextReq_ok dec r buf rest a h

theorem decU8_enc (n : Nat) (h : n < 256) (rest : List Nat) :
    decU8 (encUint n ++ rest) = .ok (n, rest) :=
  decUintW_encUint 256 n h (by omega) rest

theorem decU32_enc (n : Nat) (h : n < 4294967296) (rest : List Nat) :
    decU32 (encUint n ++ rest) = .ok (n, rest) :=
  decUintW_encUint 4294967296 n h (by omega) rest

theorem decU64_enc (n : Nat) (h : n < 18446744073709551616) (rest : List Nat) :
    decU64 (encUint n ++ rest) = .ok (n, rest) :=
  decUintW_encUint 18446744073709551616 n h (by omega) rest

mutual

theorem decNestedPart_enc (fuel : Nat) (np : NestedPart) (hw : np.wt = true)
    (hnc : np.noColl = true) (hdep : np.depth ≤ fuel + 1) (rest : List Nat) :
    decNestedPart (fuel + 1) (encNestedPart np ++ rest) = .ok (np, rest) := by
  obtain ⟨d, lang, p⟩ := np
  simp only [NestedPart.wt, Bool.and_eq_true] at hw
  obtain ⟨hwd, hwl, hwp⟩ := hw
  simp only [NestedPart.noColl, Bool.and_eq_true] at hnc
  obtain ⟨hncd, hncp⟩ := hnc
  have hdp : p.depth ≤ fuel := by
    simp only [NestedPart.depth] at hdep
    omega
  have hnf : 2 + 1 + p.num_fields < 2 ^ 64 := by
    cases p <;> simp [NestedPartContent.num_fields]
  simp only [strWt, Bool.and_eq_true, decide_eq_true_eq] at hwl
  rw [encNestedPart, List.append_assoc, List.append_assoc, List.append_assoc,
    decNestedPart, decHead_cborHead 4 (2 + 1 + p.num_fields) hnf _]
  simp only [DecR.bind_ok, if_pos rfl]
  rw [nextReqSplit decDisposition (2 + 1 + p.num_fields) (1 + p.num_fields + 1)
    (by omega) _ d _ (decDisposition_enc d hwd hncd _)]
  simp only [DecR.bind_ok]
  rw [nextReqSplit decText (1 + p.num_fields + 1) (1 + p.num_fields)
    (by omega) _ lang _ (decText_encText lang hwl.1 hwl.2 _)]
  simp only [DecR.bind_ok]
  rw [decPartContentFields_enc fuel p hwp hncp hdp 0 (1 + p.num_fields)
    (by omega) rest]
  simp only [DecR.bind_ok]
  rw [trailCheck_zero]
  rfl

theorem decPartContentFields_enc (fuel : Nat) (p : NestedPartContent)
    (hw : p.wt = true) (hnc : p.noColl = true) (hdep : p.depth ≤ fuel)
    (r rem : Nat) (hrem : rem = 1 + p.num_fields + r) (tail : List Nat) :
    decPartContentFields (decNestedPart fuel)
      ⟨rem, encPartContent p ++ tail⟩ = .ok (p, ⟨r, tail⟩) := by
  cases p with
  | NullPart =>
    simp only [NestedPartContent.num_fields] at hrem
    rw [encPartContent, decPartContentFields,
      nextReqSplit decU8 rem r (by omega) _ 0 tail (decU8_enc 0 (by norm_num) tail)]
    rfl
  | SinglePart ct content =>
    simp only [NestedPartContent.num_fields] at hrem
    simp only [NestedPartContent.wt, strWt, bytesWt, Bool.and_eq_true,
      decide_eq_true_eq] at hw
    obtain ⟨⟨hctu, hctl⟩, hcl, _⟩ := hw
    rw [encPartContent, List.append_assoc, List.append_assoc, decPartContentFields,
      nextReqSplit decU8 rem (1 + r + 1) (by omega) _ 1 _
        (decU8_enc 1 (by norm_num) _)]
    simp only [DecR.bind_ok]
    rw [nextReqSplit decText (1 + r + 1) (r + 1) (by omega) _ ct _
      (decText_encText ct hctu hctl _)]
    simp only [DecR.bind_ok]
    rw [nextReqSplit decBytes (r + 1) r (by omega) _ content tail
      (decBytes_encBytes content hcl tail)]
    simp only [DecR.bind_ok]
  | ExternalPart ct url expires size ea key nonce aad ha chash desc fname =>
    simp only [NestedPartContent.num_fields] at hrem
    simp only [NestedPartContent.wt, strWt, bytesWt, Bool.and_eq_true,
      decide_eq_true_eq] at hw
    obtain ⟨⟨hctu, hctl⟩, ⟨huu, hul⟩, hexp, hsize, hea, ⟨hkey, _⟩, ⟨hnonce, _⟩,
      ⟨haad, _⟩, hha, ⟨hch, _⟩, ⟨hdu, hdl⟩, hfu, hfl⟩ := hw
    simp only [NestedPartContent.noColl, Bool.and_eq_true] at hnc
    obtain ⟨hnea, hnha⟩ := hnc
    rw [encPartContent]
    simp only [List.append_assoc]
    rw [decPartContentFields,
      nextReqSplit decU8 rem (11 + r + 1) (by omega) _ 2 _
        (decU8_enc 2 (by norm_num) _)]
    simp only [DecR.bind_ok]
    rw [nextReqSplit decText (11 + r + 1) (10 + r + 1) (by omega) _ ct _
      (decText_encText ct hctu hctl _)]
    simp only [DecR.bind_ok]
    rw [nextReqSplit decText (10 + r + 1) (9 + r + 1) (by omega) _ url _
      (decText_encText url huu hul _)]
    simp only [DecR.bind_ok]
    rw [nextReqSplit decU32 (9 + r + 1) (8 + r + 1) (by omega) _ expires _
      (decU32_enc expires hexp _)]
    simp only [DecR.bind_ok]
    rw [nextReqSplit decU64 (8 + r + 1) (7 + r + 1) (by omega) _ size _
      (decU64_enc size hsize _)]
    simp only [DecR.bind_ok]
    rw [nextReqSplit decEncryptionAlgorithm (7 + r + 1) (6 + r + 1) (by omega) _ ea _
      (decEncryptionAlgorithm_enc ea hea hnea _)]
    simp only [DecR.bind_ok]
    rw [nextReqSplit decBytes (6 + r + 1) (5 + r + 1) (by omega) _ key _
      (decBytes_encBytes key hkey _)]
    simp only [DecR.bind_ok]
    rw [nextReqSplit decBytes (5 + r + 1) (4 + r + 1) (by omega) _ nonce _
      (decBytes_encBytes nonce hnonce _)]
    simp only [DecR.bind_ok]
    rw [nextReqSplit decBytes (4 + r + 1) (3 + r + 1) (by omega) _ aad _
      (decBytes_encBytes aad haad _)]
    simp only [DecR.bind_ok]
    rw [nextReqSplit decHashAlgorithm (3 + r + 1) (2 + r + 1) (by omega) _ ha _
      (decHashAlgorithm_enc ha hha hnha _)]
    simp only [DecR.bind_ok]
    rw [nextReqSplit decBytes (2 + r + 1) (1 + r + 1) (by omega) _ chash _
      (decBytes_encBytes chash hch _)]
    simp only [DecR.bind_ok]
    rw [nextReqSplit decText (1 + r + 1) (r + 1) (by omega) _ desc _
      (decText_encText desc hdu hdl _)]
    simp only [DecR.bind_ok]
    rw [nextReqSplit decText (r + 1) r (by omega) _ fname tail
      (decText_encText fname hfu hfl tail)]
    simp only [DecR.bind_ok]
  | MultiPart sem parts =>
    simp only [NestedPartContent.num_fields] at hrem
    simp only [NestedPartContent.wt, Bool.and_eq_true, decide_eq_true_eq] at hw
    obtain ⟨hsem, hplen, hpw⟩ := hw
    simp only [NestedPartContent.noColl, Bool.and_eq_true] at hnc
    obtain ⟨hnsem, hnp⟩ := hnc
    have hpdep : parts.depth ≤ fuel := by
      simpa [NestedPartContent.depth] using hdep
    rw [encPartContent]
    simp only [List.append_assoc]
    rw [decPartContentFields,
      nextReqSplit decU8 rem (1 + r + 1) (by omega) _ 3 _
        (decU8_enc 3 (by norm_num) _)]
    simp only [DecR.bind_ok]
    rw [nextReqSplit decPartSemantics (1 + r + 1) (r + 1) (by omega) _ sem _
      (decPartSemantics_enc sem hsem hnsem _)]
    simp only [DecR.bind_ok]
    have hparts : decParts (decNestedPart fuel)
        (cborHead 4 parts.length ++ (encNestedPartList parts ++ tail)) =
        .ok (parts, tail) := by
      rw [decParts, decHead_cborHead 4 parts.length (by exact_mod_cast hplen) _]
      simp only [DecR.bind_ok, if_pos rfl]
      exact decNestedPartN_enc fuel parts hpw hnp hpdep tail
    rw [nextReqSplit (decParts (decNestedPart fuel)) (r + 1) r (by omega) _ parts tail
      hparts]
    simp only [DecR.bind_ok]

theorem decNestedPartN_enc (fuel : Nat) (l : NestedPartList) (hw : l.wt = true)
    (hnc : l.noColl = true) (hdep : l.depth ≤ fuel) (rest : List Nat) :
    decNestedPartN (decNestedPart fuel) l.length (encNestedPartList l ++ rest) =
      .ok (l, rest) := by
  cases l with
  | nil => rfl
  | cons hd tl =>
    simp only [NestedPartList.wt, Bool.and_eq_true] at hw
    simp only [NestedPartList.noColl, Bool.and_eq_true] at hnc
    simp only [NestedPartList.depth, max_le_iff] at hdep
    have hf : 1 ≤ fuel := le_trans (nestedPartDepth_pos hd) hdep.1
    obtain ⟨fuel', rfl⟩ : ∃ w, fuel = w + 1 := ⟨fuel - 1, by omega⟩
    rw [NestedPartList.length, encNestedPartList, List.append_assoc, decNestedPartN,
      decNestedPart_enc fuel' hd hw.1 hnc.1 hdep.1 _]
    simp only [DecR.bind_ok]
    rw [decNestedPartN_enc (fuel' + 1) tl hw.2 hnc.2 hdep.2 rest]
    rfl

end

/-! ### Depth is bounded by encoded length

Every nesting level contributes at least one byte to the encoding, so the
decoder fuel `input.length + 1` always suffices on encoder output. -/

mutual

theorem valueDepth_le_enc (v : Value) : v.depth ≤ (encValue v).length := by
  cases v with
  | integer i =>
    have : 1 ≤ (encInt i).length := by
      unfold encInt
      split <;> exact length_cborHead_pos _ _
    simpa [Value.depth, encValue] using this
  | bytes b =>
    have := length_cborHead_pos 2 b.length
    simp only [Value.depth, encValue, encBytes, List.length_append]
    omega
  | text s =>
    have := length_cborHead_pos 3 s.length
    simp only [Value.depth, encValue, encText, List.length_append]
    omega
  | array xs =>
    have h1 := length_cborHead_pos 4 xs.length
    have h2 := valueListDepth_le_enc xs
    simp only [Value.depth, encValue, List.length_append]
    omega
  | map m =>
    have h1 := length_cborHead_pos 5 m.length
    have h2 := valuePairsDepth_le_enc m
    simp only [Value.depth, encValue, List.length_append]
    omega
  | tag n v =>
    have h1 := length_cborHead_pos 6 n
    have h2 := valueDepth_le_enc v
    simp only [Value.depth, encValue, List.length_append]
    omega
  | bool b => cases b <;> simp [Value.depth, encValue, encBool]
  | null => simp [Value.depth, encValue, encNull]

theorem valueListDepth_le_enc (xs : ValueList) : xs.depth ≤ (encValueList xs).length := by
  cases xs with
  | nil => simp [ValueList.depth, encValueList]
  | cons hd tl =>
    have h1 := valueDepth_le_enc hd
    have h2 := valueListDepth_le_enc tl
    simp only [ValueList.depth, encValueList, List.length_append]
    omega

theorem valuePairsDepth_le_enc (m : ValuePairs) : m.depth ≤ (encValuePairs m).length := by
  cases m with
  | nil => simp [ValuePairs.depth, encValuePairs]
  | cons k v tl =>
    have h1 := valueDepth_le_enc k
    have h2 := valueDepth_le_enc v
    have h3 := valuePairsDepth_le_enc tl
    simp only [ValuePairs.depth, encValuePairs, List.length_append]
    omega

end

theorem extsDepth_le_enc (l : List (ExtensionName × Value)) :
    extsDepth l ≤ (encExtEntries l).length := by
  induction l with
  | nil => simp [extsDepth, encExtEntries]
  | cons p tl ih =>
    obtain ⟨k, v⟩ := p
    have h1 := valueDepth_le_enc v
    simp only [extsDepth, encExtEntries, List.length_append]
    omega

mutual

theorem nestedPartDepth_le_enc (np : NestedPart) : np.depth ≤ (encNestedPart np).length := by
  cases np with
  | mk d lang p =>
    have h1 := length_cborHead_pos 4 (2 + 1 + p.num_fields)
    have h2 := nestedPartContentDepth_le_enc p
    simp only [NestedPart.depth, encNestedPart, List.length_append]
    omega

theorem nestedPartContentDepth_le_enc (p : NestedPartContent) :
    p.depth ≤ (encPartContent p).length := by
  cases p with
  | NullPart => simp [NestedPartContent.depth]
  | SinglePart ct content => simp [NestedPartContent.depth]
  | ExternalPart ct url expires size ea key nonce aad ha chash desc fname =>
    simp [NestedPartContent.depth]
  | MultiPart sem parts =>
    have h := nestedPartListDepth_le_enc parts
    simp only [NestedPartContent.depth, encPartContent, List.length_append]
    omega

theorem nestedPartListDepth_le_enc (l : NestedPartList) :
    l.depth ≤ (encNestedPartList l).length := by
  cases l with
  | nil => simp [NestedPartList.depth, encNestedPartList]
  | cons hd tl =>
    have h1 := nestedPartDepth_le_enc hd
    have h2 := nestedPartListDepth_le_enc tl
    simp only [NestedPartList.depth, encNestedPartList, List.length_append]
    omega

end

/-! ## `MimiContent`

Seven plain fields, none externally tagged at this level — the nested part
occupies a single positional slot holding its own fixed-length array — so the
outer array always has exactly 7 elements. -/

structure MimiContent where
  salt : List Nat
  replaces : Option (List Nat)
  topic_id : List Nat
  expires : Option Expiration
  in_reply_to : Option (List Nat)
  extensions : List (ExtensionName × Value)
  nested_part : NestedPart
  deriving DecidableEq

def optWt (wtf : α → Bool) : Option α → Bool
  | none => true
  | some a => wtf a

/-- Well-typedness of a `MimiContent` value: the invariants Rust's types give
every value of the in-memory type (byte contents, UTF-8 strings, integer
widths, the `BTreeMap` sorted-keys invariant). -/
def MimiContent.wt (c : MimiContent) : Bool :=
  bytesWt c.salt && (optWt bytesWt c.replaces && (bytesWt c.topic_id &&
    (optWt Expiration.wt c.expires && (optWt bytesWt c.in_reply_to &&
    (extsSorted c.extensions && (extsWt c.extensions &&
    (decide (c.extensions.length < 18446744073709551616) && c.nested_part.wt)))))))

/-- No open-enum `Custom(n)` in the value collides with a named code. -/
def MimiContent.noColl (c : MimiContent) : Bool := c.nested_part.noColl

/-- The seven field encodings of `MimiContent`, in declaration order. -/
def encMimiFields (c : MimiContent) : List Nat :=
  encBytes c.salt ++ encOption encBytes c.replaces ++ encBytes c.topic_id ++
    encOption encExpiration c.expires ++ encOption encBytes c.in_reply_to ++
    encExtensions c.extensions ++ encNestedPart c.nested_part

/-- `MimiContent::serialize`: the derived `Serde_list` serializer (an array
head of length 7 followed by the fields) written through `ciborium` to bytes;
serialization of an in-memory value never fails. -/
def MimiContent.serialize (c : MimiContent) : List Nat :=
  cborHead 4 7 ++ encMimiFields c

/-- The derived `Serde_list` visitor for `MimiContent`: array head, the seven
fields in order (each via `seq.next_element()?.ok_or_else(invalid_length)`),
then the trailing-elements assert. -/
def decMimiContent (fuel : Nat) (buf : List Nat) : DecR (MimiContent × List Nat) :=
  (decHead buf).bind fun ((major, n), rest) =>
  if major = 4 then
    (nextReq decBytes ⟨n, rest⟩).bind fun (salt, s) =>
    (nextReq (decOption decBytes) s).bind fun (replaces, s) =>
    (nextReq decBytes s).bind fun (topic_id, s) =>
    (nextReq (decOption decExpiration) s).bind fun (expires, s) =>
    (nextReq (decOption decBytes) s).bind fun (in_reply_to, s) =>
    (nextReq (decExtensions fuel) s).bind fun (extensions, s) =>
    (nextReq (decNestedPart fuel) s).bind fun (nested_part, s) =>
    (trailCheck s).bind fun rest =>
    .ok (⟨salt, replaces, topic_id, expires, in_reply_to, extensions, nested_part⟩, rest)
  else .fail

/-- `enum Error` from `content_container.rs`. -/
inductive Error where
  | UnsupportedContentType
  | NotUtf8
  | DeserializationFailed
  deriving DecidableEq

/-- Outcome of `MimiContent::deserialize`: a value, an `Error` returned to the
caller, or a panic (which unwinds past the caller and is not a return value). -/
inductive DeserializeOutcome where
  | ok (c : MimiContent)
  | error (e : Error)
  | panicked
  deriving DecidableEq

/-- `MimiContent::deserialize`: run the visitor (fuel `input.length + 1`
always suffices, each nesting level consuming at least one byte) and collapse
every decode error into `Error::DeserializationFailed`. -/
def MimiContent.deserialize (input : List Nat) : DeserializeOutcome :=
  match decMimiContent (input.length + 1) input with
  | .ok (c, _) => .ok c
  | .fail => .error .DeserializationFailed
  | .panicked => .panicked

theorem decOptBytes_enc (o : Option (List Nat)) (hw : optWt bytesWt o = true)
    (rest : List Nat) :
    decOption decBytes (encOption encBytes o ++ rest) = .ok (o, rest) := by
  cases o with
  | none => exact decOption_none decBytes rest
  | some b =>
    simp only [optWt, bytesWt, Bool.and_eq_true, decide_eq_true_eq] at hw
    obtain ⟨hd, tl, heq, hlt⟩ := cborHead_head_lt 2 b.length (by norm_num)
    exact decOption_some decBytes (encBytes b) hd (tl ++ b)
      (by rw [encBytes, heq]; rfl) (by omega) b rest
      (decBytes_encBytes b hw.1 rest)

theorem decOptExpiration_enc (o : Option Expiration)
    (hw : optWt Expiration.wt o = true) (rest : List Nat) :
    decOption decExpiration (encOption encExpiration o ++ rest) = .ok (o, rest) := by
  cases o with
  | none => exact decOption_none decExpiration rest
  | some e =>
    exact decOption_some decExpiration (encExpiration e) 130
      ((encBool e.relative ++ encUint e.time : List Nat))
      (by rfl) (by omega) e rest (decExpiration_enc e hw rest)

/-- The decode of a `MimiContent` array of `7 + r` declared elements whose
first seven elements are the encoded fields of `c`: the fields decode back to
`c` and what remains is handed to the trailing-elements check with `r`
elements left. -/
theorem decMimiContent_chain (c : MimiContent) (hw : c.wt = true)
    (hnc : c.noColl = true) (fuel : Nat) (hf1 : 1 ≤ fuel)
    (hfe : extsDepth c.extensions ≤ fuel) (hfn : c.nested_part.depth ≤ fuel)
    (r n : Nat) (hn : n = 7 + r) (hn64 : n < 2 ^ 64) (tail : List Nat) :
    decMimiContent fuel (cborHead 4 n ++ (encMimiFields c ++ tail)) =
      (trailCheck ⟨r, tail⟩).bind fun rest => .ok (c, rest) := by
  obtain ⟨salt, replaces, topic_id, expires, in_reply_to, extensions, nested_part⟩ := c
  simp only [MimiContent.wt, Bool.and_eq_true, decide_eq_true_eq] at hw
  obtain ⟨hsal, hrep, htop, hexp, hirt, hsor, hext, hlen, hnp⟩ := hw
  simp only [MimiContent.noColl] at hnc
  simp only [bytesWt, Bool.and_eq_true, decide_eq_true_eq] at hsal htop
  rw [decMimiContent, decHead_cborHead 4 n hn64 _]
  simp only [DecR.bind_ok, if_pos rfl]
  rw [encMimiFields]
  simp only [List.append_assoc]
  rw [nextReqSplit decBytes n (5 + r + 1) (by omega) _ salt _
    (decBytes_encBytes salt hsal.1 _)]
  simp only [DecR.bind_ok]
  rw [nextReqSplit (decOption decBytes) (5 + r + 1) (4 + r + 1) (by omega) _ replaces _
    (decOptBytes_enc replaces hrep _)]
  simp only [DecR.bind_ok]
  rw [nextReqSplit decBytes (4 + r + 1) (3 + r + 1) (by omega) _ topic_id _
    (decBytes_encBytes topic_id htop.1 _)]
  simp only [DecR.bind_ok]
  rw [nextReqSplit (decOption decExpiration) (3 + r + 1) (2 + r + 1) (by omega) _ expires _
    (decOptExpiration_enc expires hexp _)]
  simp only [DecR.bind_ok]
  rw [nextReqSplit (decOption decBytes) (2 + r + 1) (1 + r + 1) (by omega) _ in_reply_to _
    (decOptBytes_enc in_reply_to hirt _)]
  simp only [DecR.bind_ok]
  rw [nextReqSplit (decExtensions fuel) (1 + r + 1) (r + 1) (by omega) _ extensions _
    (decExtensions_enc fuel extensions hsor hext hf1 hfe hlen _)]
  simp only [DecR.bind_ok]
  obtain ⟨fuel', rfl⟩ : ∃ w, fuel = w + 1 := ⟨fuel - 1, by omega⟩
  rw [nextReqSplit (decNestedPart (fuel' + 1)) (r + 1) r (by omega) _ nested_part tail
    (decNestedPart_enc fuel' nested_part hnp hnc hfn tail)]
  simp

/-- The byte-length bounds that justify the `input.length + 1` fuel at the
top level. -/
theorem serialize_fuel_bounds (c : MimiContent) :
    1 ≤ (MimiContent.serialize c).length + 1 ∧
    extsDepth c.extensions ≤ (MimiContent.serialize c).length + 1 ∧
    c.nested_part.depth ≤ (MimiContent.serialize c).length + 1 := by
  have h1 := extsDepth_le_enc c.extensions
  have h2 := nestedPartDepth_le_enc c.nested_part
  have h3 := length_cborHead_pos 5 c.extensions.length
  simp only [MimiContent.serialize, encMimiFields, encExtensions,
    List.length_append]
  omega

/-- Round-trip for well-typed, collision-free values:
`deserialize (serialize c) = Ok(c)`. -/
theorem deserialize_serialize (c : MimiContent) (hw : c.wt = true)
    (hnc : c.noColl = true) :
    MimiContent.deserialize (MimiContent.serialize c) = .ok c := by
  obtain ⟨hb1, hb2, hb3⟩ := serialize_fuel_bounds c
  have hchain := decMimiContent_chain c hw hnc ((MimiContent.serialize c).length + 1)
    hb1 hb2 hb3 0 7 (by omega) (by norm_num) []
  rw [MimiContent.deserialize]
  have hser : MimiContent.serialize c = cborHead 4 7 ++ (encMimiFields c ++ []) := by
    rw [MimiContent.serialize, List.append_nil]
  rw [hser] at hchain ⊢
  rw [hchain]
  rfl

/-! ## SHA-256

The external `sha2::Sha256` primitive, implemented on `Nat` words reduced
modulo `2^32` (FIPS 180-4). -/

def rotr32 (n x : Nat) : Nat := ((x >>> n) ||| (x <<< (32 - n))) % 4294967296

def bsig0 (x : Nat) : Nat := rotr32 2 x ^^^ rotr32 13 x ^^^ rotr32 22 x
def bsig1 (x : Nat) : Nat := rotr32 6 x ^^^ rotr32 11 x ^^^ rotr32 25 x
def ssig0 (x : Nat) : Nat := rotr32 7 x ^^^ rotr32 18 x ^^^ (x >>> 3)
def ssig1 (x : Nat) : Nat := rotr32 17 x ^^^ rotr32 19 x ^^^ (x >>> 10)

def chf (x y z : Nat) : Nat := (x &&& y) ^^^ ((x ^^^ 4294967295) &&& z)
def majf (x y z : Nat) : Nat := (x &&& y) ^^^ (x &&& z) ^^^ (y &&& z)

def sha256K : List Nat :=
  [1116352408, 1899447441, 3049323471, 3921009573,
   961987163, 1508970993, 2453635748, 2870763221,
   3624381080, 310598401, 607225278, 1426881987,
   1925078388, 2162078206, 2614888103, 3248222580,
   3835390401, 4022224774, 264347078, 604807628,
   770255983, 1249150122, 1555081692, 1996064986,
   2554220882, 2821834349, 2952996808, 3210313671,
   3336571891, 3584528711, 113926993, 338241895,
   666307205, 773529912, 1294757372, 1396182291,
   1695183700, 1986661051, 2177026350, 2456956037,
   2730485921, 2820302411, 3259730800, 3345764771,
   3516065817, 3600352804, 4094571909, 275423344,
   430227734, 506948616, 659060556, 883997877,
   958139571, 1322822218, 1537002063, 1747873779,
   1955562222, 2024104815, 2227730452, 2361852424,
   2428436474, 2756734187, 3204031479, 3329325298]

structure H8 where
  a : Nat
  b : Nat
  c : Nat
  d : Nat
  e : Nat
  f : Nat
  g : Nat
  hh : Nat
  deriving DecidableEq

def sha256Init : H8 :=
  ⟨1779033703, 3144134277, 1013904242, 2773480762,
   1359893119, 2600822924, 528734635, 1541459225⟩

/-- Parse a block into big-endian 32-bit words. -/
def toWords : List Nat → List Nat
  | b0 :: b1 :: b2 :: b3 :: rest =>
    (((b0 * 256 + b1) * 256 + b2) * 256 + b3) :: toWords rest
  | _ => []

/-- Extend the message schedule by one word. -/
def extendStep (w : List Nat) : List Nat :=
  let t := w.length
  w ++ [(ssig1 (w.getD (t - 2) 0) + w.getD (t - 7) 0 + ssig0 (w.getD (t - 15) 0) +
    w.getD (t - 16) 0) % 4294967296]

def mkSchedule (w : List Nat) : Nat → List Nat
  | 0 => w
  | k + 1 => mkSchedule (extendStep w) k

def sha256Round (st : H8) (kw : Nat × Nat) : H8 :=
  let t1 := (st.hh + bsig1 st.e + chf st.e st.f st.g + kw.1 + kw.2) % 4294967296
  let t2 := (bsig0 st.a + majf st.a st.b st.c) % 4294967296
  ⟨(t1 + t2) % 4294967296, st.a, st.b, st.c,
    (st.d + t1) % 4294967296, st.e, st.f, st.g⟩

def sha256Compress (st : H8) (block : List Nat) : H8 :=
  let w := mkSchedule (toWords block) 48
  let e := (sha256K.zip w).foldl sha256Round st
  ⟨(st.a + e.a) % 4294967296, (st.b + e.b) % 4294967296,
   (st.c + e.c) % 4294967296, (st.d + e.d) % 4294967296,
   (st.e + e.e) % 4294967296, (st.f + e.f) % 4294967296,
   (st.g + e.g) % 4294967296, (st.hh + e.hh) % 4294967296⟩

def sha256Blocks : Nat → H8 → List Nat → H8
  | 0, st, _ => st
  | _ + 1, st, [] => st
  | fuel + 1, st, b :: bs =>
    sha256Blocks fuel (sha256Compress st ((b :: bs).take 64)) ((b :: bs).drop 64)

/-- Merkle–Damgård padding: `0x80`, zeros, then the 64-bit bit length. -/
def sha256Pad (msg : List Nat) : List Nat :=
  msg ++ 128 :: List.replicate ((64 - (msg.length + 9) % 64) % 64) 0 ++
    beBytes 8 (8 * msg.length)

def sha256 (msg : List Nat) : List Nat :=
  let padded := sha256Pad msg
  let st := sha256Blocks padded.length sha256Init padded
  beBytes 4 st.a ++ beBytes 4 st.b ++ beBytes 4 st.c ++ beBytes 4 st.d ++
    beBytes 4 st.e ++ beBytes 4 st.f ++ beBytes 4 st.g ++ beBytes 4 st.hh

theorem sha256_length (msg : List Nat) : (sha256 msg).length = 32 := by
  simp [sha256, length_beBytes]

/-! ## Message-id derivation and string rendering -/

/-- `MimiContent::message_id`: SHA-256 over
`sender ∥ room ∥ serialize(self) ∥ salt`, then `0x01` followed by the first
31 digest bytes. -/
def MimiContent.message_id (c : MimiContent) (sender room : List Nat) : List Nat :=
  let value := sender ++ room ++ MimiContent.serialize c ++ c.salt
  let hash := sha256 value
  1 :: hash.take 31

/-- The bytes of `"text/markdown"`. -/
def markdownContentType : List Nat :=
  [116, 101, 120, 116, 47, 109, 97, 114, 107, 100, 111, 119, 110]

/-- `MimiContent::string_rendering`: the UTF-8 body of a markdown
`SinglePart` (the match guard compares the content type for equality with
`"text/markdown"`); invalid UTF-8 is `NotUtf8` and every other part is
`UnsupportedContentType`. -/
def MimiContent.string_rendering (c : MimiContent) : Except Error (List Nat) :=
  match c.nested_part.part with
  | .SinglePart content_type content =>
    if content_type = markdownContentType then
      if validUtf8 content then .ok content else .error .NotUtf8
    else .error .UnsupportedContentType
  | _ => .error .UnsupportedContentType

/-! ## `Timestamp` (from `message_status.rs`)

Serialized as `Value::Tag(62, Integer(seconds))`; deserialized by reading a
CBOR value and matching: a tag-62 integer that fits `u64` succeeds, an
out-of-range integer is the overflow error, a tag-62 non-integer payload and
a non-tag-62 value are type errors. -/

inductive TimestampError where
  | overflow
  | notInteger
  | wrongTag
  deriving DecidableEq

def Timestamp.serializeValue (t : Nat) : Value := .tag 62 (.integer (t : Int))

def Timestamp.deserializeValue (v : Value) : Except TimestampError Nat :=
  match v with
  | .tag 62 w =>
    match w with
    | .integer i =>
      if 0 ≤ i ∧ i < 18446744073709551616 then .ok i.toNat
      else .error .overflow
    | _ => .error .notInteger
  | _ => .error .wrongTag

/-! ## Validation against the repository's `original_message` test vector -/

/-- The `original_message` test value from `content_container.rs`. -/
def originalMessage : MimiContent :=
  { salt := [94, 237, 148, 6, 194, 84, 85, 71, 171, 111, 9, 242, 10, 24, 176, 3]
  , replaces := none
  , topic_id := []
  , expires := none
  , in_reply_to := none
  , extensions :=
      [ (.Number 1, .text [109, 105, 109, 105, 58, 47, 47, 101, 120, 97, 109, 112, 108, 101, 46, 99, 111, 109, 47, 117, 47, 97, 108, 105, 99, 101, 45, 115, 109, 105, 116, 104])
      , (.Number 2, .text [109, 105, 109, 105, 58, 47, 47, 101, 120, 97, 109, 112, 108, 101, 46, 99, 111, 109, 47, 114, 47, 101, 110, 103, 105, 110, 101, 101, 114, 105, 110, 103, 95, 116, 101, 97, 109]) ]
  , nested_part := .mk .Render []
      (.SinglePart [116, 101, 120, 116, 47, 109, 97, 114, 107, 100, 111, 119, 110, 59, 118, 97, 114, 105, 97, 110, 116, 61, 71, 70, 77, 45, 77, 73, 77, 73]
        [72, 105, 32, 101, 118, 101, 114, 121, 111, 110, 101, 44, 32, 119, 101, 32, 106, 117, 115, 116, 32, 115, 104, 105, 112, 112, 101, 100, 32, 114, 101, 108, 101, 97, 115, 101, 32, 50, 46, 48, 46, 32, 95, 95, 71, 111, 111, 100, 32, 32, 119, 111, 114, 107, 95, 95, 33]) }

def aliceUri : List Nat := [109, 105, 109, 105, 58, 47, 47, 101, 120, 97, 109, 112, 108, 101, 46, 99, 111, 109, 47, 117, 47, 97, 108, 105, 99, 101, 45, 115, 109, 105, 116, 104]

def engineeringRoomUri : List Nat := [109, 105, 109, 105, 58, 47, 47, 101, 120, 97, 109, 112, 108, 101, 46, 99, 111, 109, 47, 114, 47, 101, 110, 103, 105, 110, 101, 101, 114, 105, 110, 103, 95, 116, 101, 97, 109]

/-- The serializer reproduces the expected wire bytes of the
`original_message` test octet-for-octet. -/
theorem originalMessage_serialize_vector :
    MimiContent.serialize originalMessage = [135, 80, 94, 237, 148, 6, 194, 84, 85, 71, 171, 111, 9, 242, 10, 24, 176, 3, 246, 64, 246, 246, 162, 1, 120, 32, 109, 105, 109, 105, 58, 47, 47, 101, 120, 97, 109, 112, 108, 101, 46, 99, 111, 109, 47, 117, 47, 97, 108, 105, 99, 101, 45, 115, 109, 105, 116, 104, 2, 120, 37, 109, 105, 109, 105, 58, 47, 47, 101, 120, 97, 109, 112, 108, 101, 46, 99, 111, 109, 47, 114, 47, 101, 110, 103, 105, 110, 101, 101, 114, 105, 110, 103, 95, 116, 101, 97, 109, 133, 1, 96, 1, 120, 30, 116, 101, 120, 116, 47, 109, 97, 114, 107, 100, 111, 119, 110, 59, 118, 97, 114, 105, 97, 110, 116, 61, 71, 70, 77, 45, 77, 73, 77, 73, 88, 57, 72, 105, 32, 101, 118, 101, 114, 121, 111, 110, 101, 44, 32, 119, 101, 32, 106, 117, 115, 116, 32, 115, 104, 105, 112, 112, 101, 100, 32, 114, 101, 108, 101, 97, 115, 101, 32, 50, 46, 48, 46, 32, 95, 95, 71, 111, 111, 100, 32, 32, 119, 111, 114, 107, 95, 95, 33] := by decide

/-- The message-id derivation reproduces the expected id of the
`original_message` test. -/
theorem originalMessage_id_vector :
    MimiContent.message_id originalMessage aliceUri engineeringRoomUri =
      [1, 176, 8, 68, 103, 39, 60, 196, 61, 111, 14, 190, 172, 19, 235, 132, 34, 156, 79, 255, 232, 246, 195, 89, 76, 144, 95, 71, 119, 158, 90, 121] := by decide

/-! ## Supporting definitions for the claim theorems -/

theorem encMimiFields_bounds (c : MimiContent) :
    extsDepth c.extensions ≤ (encMimiFields c).length ∧
    c.nested_part.depth ≤ (encMimiFields c).length := by
  have h1 := extsDepth_le_enc c.extensions
  have h2 := nestedPartDepth_le_enc c.nested_part
  have h3 := length_cborHead_pos 5 c.extensions.length
  simp only [encMimiFields, encExtensions, List.length_append]
  omega

/-- A minimal well-typed content value (empty salt and topic, a null part). -/
def simpleContent : MimiContent :=
  ⟨[], none, [], none, none, [], .mk .Unspecified [] .NullPart⟩

/-- `simpleContent` with its outer array header bumped from 7 to 8 elements
and one extra `unsigned(0)` element appended after the nested part. -/
def trailingInput : List Nat := 136 :: (encMimiFields simpleContent ++ [0])

/-- `Modelled from the spec:` the key order the claim states for the
extension map — `Number` keys before `Text` keys, ascending within each kind
— for comparison against the order the source's derived `Ord` yields. -/
def specExtNameLt : ExtensionName → ExtensionName → Bool
  | .Number i, .Number j => decide (i < j)
  | .Number _, .Text _ => true
  | .Text _, .Number _ => false
  | .Text s, .Text t => lexLtBytes s t

def specInsert (p : ExtensionName × Value) :
    List (ExtensionName × Value) → List (ExtensionName × Value)
  | [] => [p]
  | q :: tl => if specExtNameLt p.1 q.1 then p :: q :: tl else q :: specInsert p tl

def specSortExts : List (ExtensionName × Value) → List (ExtensionName × Value)
  | [] => []
  | p :: tl => specInsert p (specSortExts tl)

/-- `Modelled from the spec:` extension-map emission in the claim's stated
order (`Number` keys first). -/
def encExtensionsSpecOrder (l : List (ExtensionName × Value)) : List Nat :=
  cborHead 5 l.length ++ encExtEntries (specSortExts l)

/-- An extension map with both kinds of key, in the source's (derived `Ord`)
order: the `Text` key sorts first. -/
def mixedExts : List (ExtensionName × Value) :=
  [(.Text [97], .null), (.Number 1, .null)]

def mixedExtsContent : MimiContent :=
  ⟨[], none, [], none, none, mixedExts, .mk .Unspecified [] .NullPart⟩

/-- The order the emitted keys actually follow: `Text` keys precede `Number`
keys, byte-lexicographic among `Text`, numeric among `Number`. -/
def keyOrderOK : ExtensionName → ExtensionName → Prop
  | .Text s, .Text t => lexLtBytes s t = true
  | .Text _, .Number _ => True
  | .Number _, .Text _ => False
  | .Number i, .Number j => i < j

theorem lt_keyOrderOK (a b : ExtensionName) (h : ExtensionName.lt a b = true) :
    keyOrderOK a b := by
  cases a <;> cases b <;> simp_all [ExtensionName.lt, keyOrderOK]

theorem extsSorted_pairwise (l : List (ExtensionName × Value))
    (h : extsSorted l = true) :
    List.Pairwise (fun a b => ExtensionName.lt a.1 b.1 = true) l := by
  induction l with
  | nil => exact List.Pairwise.nil
  | cons a tl ih =>
    rw [List.pairwise_cons]
    exact ⟨extsSorted_head_lt a tl h, ih (extsSorted_tail a tl h)⟩

def Disposition.isNamed : Disposition → Bool
  | .Custom _ => false
  | _ => true

def Value.isTag62 : Value → Bool
  | .tag 62 _ => true
  | _ => false

def Value.isInteger : Value → Bool
  | .integer _ => true
  | _ => false

/-- The bytes of `"text/markdown;variant=GFM-MIMI"`. -/
def gfmContentTypeBytes : List Nat :=
  [116, 101, 120, 116, 47, 109, 97, 114, 107, 100, 111, 119, 110, 59, 118, 97,
   114, 105, 97, 110, 116, 61, 71, 70, 77, 45, 77, 73, 77, 73]

/-- A markdown single-part message (content `"hi"`). -/
def mdContent : MimiContent :=
  ⟨[], none, [], none, none, [],
    .mk .Render [] (.SinglePart markdownContentType [104, 105])⟩

/-- A single part claiming `text/markdown` whose body byte `0xff` is not
valid UTF-8. -/
def badUtf8Content : MimiContent :=
  ⟨[], none, [], none, none, [],
    .mk .Render [] (.SinglePart markdownContentType [255])⟩

/-- A content value whose nested part is not a `SinglePart`. -/
def nullPartContent : MimiContent :=
  ⟨[], none, [], none, none, [], .mk .Render [] .NullPart⟩

/-- A single part with the parameterised markdown content type used by the
repository's test vectors. -/
def gfmContent : MimiContent :=
  ⟨[], none, [], none, none, [],
    .mk .Render [] (.SinglePart gfmContentTypeBytes [104, 105])⟩

/-- A content value whose disposition is `Custom(1)` — well-typed in Rust,
since `Disposition::Custom(u8)` accepts any byte, but colliding with the
named code of `Render`. -/
def customCollisionContent : MimiContent :=
  ⟨[], none, [], none, none, [], .mk (.Custom 1) [] .NullPart⟩

/-- A minimal `ExternalPart` with the attachment test vector's URI. -/
def externalPartSample : NestedPartContent :=
  .ExternalPart []
    [104, 116, 116, 112, 115, 58, 47, 47, 101, 120, 97, 109, 112, 108, 101,
     46, 99, 111, 109, 47, 115, 116, 111, 114, 97, 103, 101, 47, 56, 107,
     115, 66, 52, 98, 83, 114, 114, 82, 69, 46, 109, 112, 52]
    0 0 .None [] [] [] .Unspecified [] [] []

/-! ## Claim theorems -/

/-- C1 (counterexample): the round-trip claim fails as stated.  The value
whose disposition is `Custom(1)` is well-typed, but its wire form is the byte
`1`, which decodes to the named variant `Render`, so
`deserialize(serialize(c)) ≠ Ok(c)`. -/
theorem c1_roundtrip_counterexample :
    MimiContent.deserialize (MimiContent.serialize customCollisionContent) ≠
      DeserializeOutcome.ok customCollisionContent := by decide

/-- C1 (amended): for every well-typed `MimiContent` value none of whose
open-enum values is a `Custom(n)` whose `n` collides with a named code,
`MimiContent::deserialize(MimiContent::serialize(c))` succeeds and returns a
value equal to `c`. -/
theorem c1_roundtrip_amended (c : MimiContent) (hw : c.wt = true)
    (hnc : c.noColl = true) :
    MimiContent.deserialize (MimiContent.serialize c) = .ok c :=
  deserialize_serialize c hw hnc

theorem c1_roundtrip_witness :
    MimiContent.wt originalMessage = true ∧
    MimiContent.noColl originalMessage = true ∧
    MimiContent.deserialize (MimiContent.serialize originalMessage) =
      .ok originalMessage :=
  ⟨by decide, by decide, c1_roundtrip_amended originalMessage (by decide) (by decide)⟩

/-- C2: every record serializes as a CBOR array whose length is 1 per plain
field plus `1 + fields(variant)` per externally tagged field: the
`MimiContent` outer array always has exactly 7 elements, `Expiration` has 2,
and every `NestedPart` array has `2 + 1 + fields(variant)` elements — 3, 5,
15 or 5 for `NullPart`, `SinglePart`, `ExternalPart`, `MultiPart`. -/
theorem c2_record_array_lengths :
    (∀ c : MimiContent, ∃ body, MimiContent.serialize c = cborHead 4 7 ++ body) ∧
    (∀ e : Expiration, ∃ body, encExpiration e = cborHead 4 2 ++ body) ∧
    (∀ np : NestedPart, ∃ body,
      encNestedPart np = cborHead 4 (2 + 1 + np.part.num_fields) ++ body) ∧
    (∀ np : NestedPart, 2 + 1 + np.part.num_fields =
      match np.part with
      | .NullPart => 3
      | .SinglePart _ _ => 5
      | .ExternalPart _ _ _ _ _ _ _ _ _ _ _ _ => 15
      | .MultiPart _ _ => 5) := by
  refine ⟨fun c => ⟨encMimiFields c, rfl⟩,
    fun e => ⟨encBool e.relative ++ encUint e.time, by simp [encExpiration]⟩,
    fun np => ?_, fun np => ?_⟩
  · obtain ⟨d, lang, p⟩ := np
    exact ⟨encDisposition d ++ encText lang ++ encPartContent p,
      by simp [encNestedPart, NestedPart.part, List.append_assoc]⟩
  · obtain ⟨d, lang, p⟩ := np
    cases p <;> rfl

/-- C3: for every content value and byte strings `sender` and `room`,
`message_id` returns exactly 32 bytes: `0x01` followed by the first 31 bytes
of `SHA-256(sender ∥ room ∥ serialize(c) ∥ c.salt)`. -/
theorem c3_message_id_contract (c : MimiContent) (sender room : List Nat) :
    (MimiContent.message_id c sender room).length = 32 ∧
    MimiContent.message_id c sender room =
      1 :: (sha256 (sender ++ room ++ MimiContent.serialize c ++ c.salt)).take 31 := by
  constructor
  · simp [MimiContent.message_id, sha256_length]
  · rfl

theorem c3_message_id_witness :
    (MimiContent.message_id originalMessage aliceUri engineeringRoomUri).length = 32 ∧
    MimiContent.message_id originalMessage aliceUri engineeringRoomUri =
      1 :: (sha256 (aliceUri ++ engineeringRoomUri ++
        MimiContent.serialize originalMessage ++ originalMessage.salt)).take 31 :=
  c3_message_id_contract originalMessage aliceUri engineeringRoomUri

/-- C4 (counterexample): serializing an `ExternalPart` does *not* wrap the
`url` field in CBOR tag 32 — the emitted field bytes are a bare text string
(`0x78 0x2b` directly before the URI bytes for the attachment vector's URI),
and the tag-32 header bytes `0xd8 0x20` appear nowhere in the output, as the
byte `0xd8` itself does not occur. -/
theorem c4_url_tag32_counterexample :
    encPartContent externalPartSample =
      [2, 96, 120, 43, 104, 116, 116, 112, 115, 58, 47, 47, 101, 120, 97, 109,
       112, 108, 101, 46, 99, 111, 109, 47, 115, 116, 111, 114, 97, 103, 101,
       47, 56, 107, 115, 66, 52, 98, 83, 114, 114, 82, 69, 46, 109, 112, 52,
       0, 0, 0, 64, 64, 64, 0, 64, 96, 96] ∧
    216 ∉ encPartContent externalPartSample := by decide

/-- C4 (amended): the `url` field of an `ExternalPart` is a plain `String`,
emitted as a bare CBOR text string — a major-type-3 head immediately
followed by the URI bytes, with no tag-32 header. -/
theorem c4_url_bare_text (ct url : List Nat) (expires size : Nat)
    (ea : EncryptionAlgorithm) (key nonce aad : List Nat) (ha : HashAlgorithm)
    (chash desc fname : List Nat) :
    encPartContent
      (.ExternalPart ct url expires size ea key nonce aad ha chash desc fname) =
    encUint 2 ++ encText ct ++ cborHead 3 url.length ++ url ++ encUint expires ++
      encUint size ++ encEncryptionAlgorithm ea ++ encBytes key ++
      encBytes nonce ++ encBytes aad ++ encHashAlgorithm ha ++ encBytes chash ++
      encText desc ++ encText fname := by
  simp [encPartContent, encText, List.append_assoc]

/-- C5: decoding a `Disposition` from the unsigned integer `n` yields the
named variant whose code is `n` when one exists (codes 0 through 8) and
`Custom(n)` otherwise, and re-encoding the decoded value produces `n`
again. -/
theorem c5_disposition_open_enum (n : Nat) (h : n < 256) (rest : List Nat) :
    decDisposition (encUint n ++ rest) = .ok (Disposition.fromU8 n, rest) ∧
    (n ≤ 8 → (Disposition.fromU8 n).isNamed = true ∧
      (Disposition.fromU8 n).toU8 = n) ∧
    (8 < n → Disposition.fromU8 n = .Custom n) ∧
    encDisposition (Disposition.fromU8 n) = encUint n := by
  refine ⟨?_, ?_, ?_, ?_⟩
  · rw [decDisposition, decU8_enc n h rest]
    rfl
  · intro h8
    interval_cases n <;> exact ⟨rfl, rfl⟩
  · exact Disposition.fromU8_default n
  · rw [encDisposition, Disposition.toU8_fromU8]

theorem c5_disposition_witness :
    (200 < 256 ∧
      (decDisposition (encUint 200 ++ []) = .ok (Disposition.fromU8 200, []) ∧
        (200 ≤ 8 → (Disposition.fromU8 200).isNamed = true ∧
          (Disposition.fromU8 200).toU8 = 200) ∧
        (8 < 200 → Disposition.fromU8 200 = .Custom 200) ∧
        encDisposition (Disposition.fromU8 200) = encUint 200)) ∧
    (5 < 256 ∧
      (decDisposition (encUint 5 ++ []) = .ok (Disposition.fromU8 5, []) ∧
        (5 ≤ 8 → (Disposition.fromU8 5).isNamed = true ∧
          (Disposition.fromU8 5).toU8 = 5) ∧
        (8 < 5 → Disposition.fromU8 5 = .Custom 5) ∧
        encDisposition (Disposition.fromU8 5) = encUint 5)) :=
  ⟨⟨by decide, c5_disposition_open_enum 200 (by decide) []⟩,
   ⟨by decide, c5_disposition_open_enum 5 (by decide) []⟩⟩

/-- C6 (counterexample): an array with an extra trailing element does not
make `deserialize` return a `TrailingElements` error to the caller — no such
error exists in the `Error` type — it trips the derive's `assert!` and
panics: on `simpleContent`'s encoding with the header bumped to 8 and an
`unsigned(0)` appended, the outcome is a panic, not a returned error. -/
theorem c6_trailing_counterexample :
    MimiContent.deserialize trailingInput = .panicked ∧
    MimiContent.deserialize trailingInput ≠ .error .DeserializationFailed := by
  decide

/-- C6 (amended): after the last declared field the decoder does verify that
no array elements remain, but extra trailing elements are rejected by an
`assert!`: an extra element that parses as `u8` (e.g. `unsigned(0)`) causes a
panic, and one that does not (e.g. an empty text string, `0x60`) surfaces as
a `DeserializationFailed` error — never a `TrailingElements` error. -/
theorem c6_trailing_amended (c : MimiContent) (hw : c.wt = true)
    (hnc : c.noColl = true) :
    MimiContent.deserialize (136 :: (encMimiFields c ++ [0])) = .panicked ∧
    MimiContent.deserialize (136 :: (encMimiFields c ++ [96])) =
      .error .DeserializationFailed := by
  obtain ⟨hb1, hb2⟩ := encMimiFields_bounds c
  constructor
  · rw [show (136 :: (encMimiFields c ++ [0]) : List Nat) =
      cborHead 4 8 ++ (encMimiFields c ++ [0]) from rfl,
      MimiContent.deserialize,
      decMimiContent_chain c hw hnc _
        (by omega)
        (by simp only [List.length_append]; omega)
        (by simp only [List.length_append]; omega)
        1 8 (by norm_num) (by norm_num) [0]]
    rfl
  · rw [show (136 :: (encMimiFields c ++ [96]) : List Nat) =
      cborHead 4 8 ++ (encMimiFields c ++ [96]) from rfl,
      MimiContent.deserialize,
      decMimiContent_chain c hw hnc _
        (by omega)
        (by simp only [List.length_append]; omega)
        (by simp only [List.length_append]; omega)
        1 8 (by norm_num) (by norm_num) [96]]
    rfl

theorem c6_trailing_witness :
    MimiContent.wt simpleContent = true ∧
    MimiContent.noColl simpleContent = true ∧
    MimiContent.deserialize (136 :: (encMimiFields simpleContent ++ [0])) = .panicked ∧
    MimiContent.deserialize (136 :: (encMimiFields simpleContent ++ [96])) =
      .error .DeserializationFailed := by
  refine ⟨by decide, by decide, ?_⟩
  exact c6_trailing_amended simpleContent (by decide) (by decide)

/-- C7 (counterexample): the CBOR map is *not* emitted with `Number` keys
before `Text` keys.  For a map holding `Text "a"` and `Number 1`, the
serializer (following the derived `Ord`, whose declaration order puts `Text`
first) emits the text key `"a"` first, which differs from the claim's
order (numeric keys first). -/
theorem c7_extension_order_counterexample :
    MimiContent.serialize mixedExtsContent =
      [135, 64, 246, 64, 246, 246, 162, 97, 97, 246, 1, 246, 131, 0, 96, 0] ∧
    encExtensions mixedExts = [162, 97, 97, 246, 1, 246] ∧
    encExtensionsSpecOrder mixedExts = [162, 1, 246, 97, 97, 246] ∧
    encExtensions mixedExts ≠ encExtensionsSpecOrder mixedExts := by decide

/-- C7 (amended): the CBOR map is emitted in the total order of
`ExtensionName` — which places every `Text` key before every `Number` key,
lexicographic among text keys and numeric among integer keys — the map body
being the entries of the sorted association list in order. -/
theorem c7_extension_order_amended (c : MimiContent) (hw : c.wt = true) :
    (∃ pre post, MimiContent.serialize c =
      pre ++ (encExtensions c.extensions ++ post)) ∧
    encExtensions c.extensions =
      cborHead 5 c.extensions.length ++ encExtEntries c.extensions ∧
    List.Pairwise keyOrderOK (c.extensions.map Prod.fst) := by
  refine ⟨⟨cborHead 4 7 ++ (encBytes c.salt ++ encOption encBytes c.replaces ++
      encBytes c.topic_id ++ encOption encExpiration c.expires ++
      encOption encBytes c.in_reply_to), encNestedPart c.nested_part,
      by simp [MimiContent.serialize, encMimiFields, List.append_assoc]⟩,
    rfl, ?_⟩
  simp only [MimiContent.wt, Bool.and_eq_true] at hw
  have hs : extsSorted c.extensions = true := hw.2.2.2.2.2.1
  have hp := extsSorted_pairwise c.extensions hs
  have hmap := hp.map Prod.fst
    (S := fun a b => ExtensionName.lt a b = true) (fun a b hab => hab)
  exact hmap.imp (fun hab => lt_keyOrderOK _ _ hab)

theorem c7_extension_order_witness :
    MimiContent.wt mixedExtsContent = true ∧
    ((∃ pre post, MimiContent.serialize mixedExtsContent =
        pre ++ (encExtensions mixedExtsContent.extensions ++ post)) ∧
      encExtensions mixedExtsContent.extensions =
        cborHead 5 mixedExtsContent.extensions.length ++
          encExtEntries mixedExtsContent.extensions ∧
      List.Pairwise keyOrderOK (mixedExtsContent.extensions.map Prod.fst)) :=
  ⟨by decide, c7_extension_order_amended mixedExtsContent (by decide)⟩

/-- C8: `string_rendering` returns the content bytes (the UTF-8 string) when
the nested part is a `SinglePart` with content type exactly
`"text/markdown"`, returns `NotUtf8` when those bytes are not valid UTF-8,
and returns `UnsupportedContentType` for every other nested part. -/
theorem c8_string_rendering_cases (c : MimiContent) :
    (∀ ct content, c.nested_part.part = .SinglePart ct content →
      ct = markdownContentType →
      (validUtf8 content = true → MimiContent.string_rendering c = .ok content) ∧
      (validUtf8 content = false →
        MimiContent.string_rendering c = .error .NotUtf8)) ∧
    ((∀ ct content, c.nested_part.part = .SinglePart ct content →
        ct ≠ markdownContentType) →
      MimiContent.string_rendering c = .error .UnsupportedContentType) := by
  obtain ⟨salt, rep, top, exp, irt, exts, np⟩ := c
  obtain ⟨d, lang, p⟩ := np
  cases p with
  | SinglePart ct0 content0 =>
    constructor
    · intro ct content heq hmd
      simp only [NestedPart.part] at heq
      injection heq with h1 h2
      subst h1
      subst h2
      constructor
      · intro hv
        simp [MimiContent.string_rendering, NestedPart.part, hmd, hv]
      · intro hv
        simp [MimiContent.string_rendering, NestedPart.part, hmd, hv]
    · intro hother
      have hne := hother ct0 content0 rfl
      simp [MimiContent.string_rendering, NestedPart.part, hne]
  | NullPart =>
    refine ⟨fun ct content heq _ => ?_, fun _ => rfl⟩
    simp only [NestedPart.part] at heq
    exact absurd heq (by simp)
  | ExternalPart ct url expires size ea key nonce aad ha chash desc fname =>
    refine ⟨fun ct content heq _ => ?_, fun _ => rfl⟩
    simp only [NestedPart.part] at heq
    exact absurd heq (by simp)
  | MultiPart sem parts =>
    refine ⟨fun ct content heq _ => ?_, fun _ => rfl⟩
    simp only [NestedPart.part] at heq
    exact absurd heq (by simp)

theorem c8_string_rendering_witness :
    MimiContent.string_rendering mdContent = .ok [104, 105] ∧
    MimiContent.string_rendering badUtf8Content = .error .NotUtf8 ∧
    MimiContent.string_rendering nullPartContent = .error .UnsupportedContentType :=
  ⟨((c8_string_rendering_cases mdContent).1 markdownContentType [104, 105]
      rfl rfl).1 (by decide),
   ((c8_string_rendering_cases badUtf8Content).1 markdownContentType [255]
      rfl rfl).2 (by decide),
   (c8_string_rendering_cases nullPartContent).2
      (fun ct content heq => nomatch heq)⟩

/-- C9: `Timestamp` serializes as CBOR tag 62 wrapping an unsigned integer
(wire bytes `0xd8 0x3e` followed by the integer), and decoding fails exactly
when the tag is missing or not 62, the payload is not an integer, or the
integer does not fit the unsigned 64-bit range (overflow); otherwise it
returns the wrapped integer value. -/
theorem c9_timestamp_codec (t : Nat) (i : Int) (v w : Value)
    (_ht : t < 18446744073709551616) :
    (Timestamp.serializeValue t = .tag 62 (.integer t) ∧
      encValue (Timestamp.serializeValue t) = 216 :: 62 :: encUint t) ∧
    (0 ≤ i → i < 18446744073709551616 →
      Timestamp.deserializeValue (.tag 62 (.integer i)) = .ok i.toNat) ∧
    ((i < 0 ∨ 18446744073709551616 ≤ i) →
      Timestamp.deserializeValue (.tag 62 (.integer i)) = .error .overflow) ∧
    (w.isInteger = false →
      Timestamp.deserializeValue (.tag 62 w) = .error .notInteger) ∧
    (v.isTag62 = false → Timestamp.deserializeValue v = .error .wrongTag) := by
  refine ⟨⟨rfl, ?_⟩, ?_, ?_, ?_, ?_⟩
  · simp only [Timestamp.serializeValue, encValue, encInt, Int.le_refl,
      Int.natCast_nonneg, if_pos, Int.toNat_natCast, encUint]
    rfl
  · intro h0 h1
    simp [Timestamp.deserializeValue, h0, h1]
  · intro hrange
    rw [Timestamp.deserializeValue]
    rw [if_neg (by omega)]
  · intro hw
    cases w <;> simp_all [Value.isInteger, Timestamp.deserializeValue]
  · intro hv
    unfold Timestamp.deserializeValue
    split
    · simp [Value.isTag62] at hv
    · rfl

theorem c9_timestamp_witness :
    encValue (Timestamp.serializeValue 1644390004) = 216 :: 62 :: encUint 1644390004 ∧
    Timestamp.deserializeValue (.tag 62 (.integer 1644390004)) = .ok 1644390004 ∧
    Timestamp.deserializeValue (.tag 62 (.integer (-1))) = .error .overflow ∧
    Timestamp.deserializeValue (.tag 62 .null) = .error .notInteger ∧
    Timestamp.deserializeValue .null = .error .wrongTag :=
  ⟨(c9_timestamp_codec 1644390004 (-1) .null .null (by decide)).1.2,
   (c9_timestamp_codec 1644390004 1644390004 .null .null (by decide)).2.1
     (by decide) (by decide),
   (c9_timestamp_codec 1644390004 (-1) .null .null (by decide)).2.2.1
     (Or.inl (by decide)),
   (c9_timestamp_codec 1644390004 (-1) .null .null (by decide)).2.2.2.1 rfl,
   (c9_timestamp_codec 1644390004 (-1) .null .null (by decide)).2.2.2.2 rfl⟩

/-- C10: `string_rendering` compares the content type by exact equality with
`"text/markdown"`: any `SinglePart` whose content type differs — such as
`"text/markdown;variant=GFM-MIMI"` with its parameter, as in the markdown
test vectors — yields `UnsupportedContentType` rather than the body. -/
theorem c10_content_type_exact (c : MimiContent) (ct content : List Nat)
    (hpart : c.nested_part.part = .SinglePart ct content)
    (hne : ct ≠ markdownContentType) :
    MimiContent.string_rendering c = .error .UnsupportedContentType := by
  obtain ⟨salt, rep, top, exp, irt, exts, np⟩ := c
  obtain ⟨d, lang, p⟩ := np
  simp only [NestedPart.part] at hpart
  subst hpart
  simp [MimiContent.string_rendering, NestedPart.part, hne]

theorem c10_content_type_witness :
    gfmContentTypeBytes ≠ markdownContentType ∧
    MimiContent.string_rendering gfmContent = .error .UnsupportedContentType :=
  ⟨by decide,
   c10_content_type_exact gfmContent gfmContentTypeBytes [104, 105] rfl (by decide)⟩

end Mimi
